import Mathlib

/-!
# Verification of the `restore` backup-extraction tool

Shallow embedding of `src/main.rs` of the `restore` repository: the
natural-order comparator `cmp_natural`, the path normalizer
(`replace('\\', "/")` followed by `strip_drive_letter`), the recursive
archive locator `collect_zips` / `find_zip_files`, and the fault-tolerant
extraction loop `extract`.

Strings are modelled as lists of bytes (`List Nat`), matching the Rust
code, which operates on `str::as_bytes()` throughout the comparator and
the drive-letter stripper.  Filesystem and archive I/O is modelled by an
explicit directory tree (`FSNode`) and per-entry outcome flags, with the
mutable accumulators of the extraction loop threaded as explicit state.
-/

deriving instance DecidableEq for Except

namespace Restore

/-- Byte view of a string literal (all examples in this development are
ASCII, where `Char.toNat` is the byte value). -/
def bytes (s : String) : List Nat := s.data.map Char.toNat

/-- `u8::is_ascii_digit`. -/
def isDigit (c : Nat) : Bool := decide (48 ≤ c ∧ c ≤ 57)

/-- `u8::is_ascii_alphabetic`. -/
def isAlpha (c : Nat) : Bool := decide ((65 ≤ c ∧ c ≤ 90) ∨ (97 ≤ c ∧ c ≤ 122))

/-- `u8::to_ascii_lowercase`. -/
def toLower (c : Nat) : Nat := if 65 ≤ c ∧ c ≤ 90 then c + 32 else c

/-- `usize::cmp` / `Ord::cmp` on natural numbers. -/
def cmpNat (a b : Nat) : Ordering :=
  if a < b then .lt else if a = b then .eq else .gt

/-- Lexicographic comparison of byte slices, Rust's `<[u8]>::cmp` /
`str::cmp` (used for the digit runs `a_trim.cmp(b_trim)`). -/
def cmpList : List Nat → List Nat → Ordering
  | [], [] => .eq
  | [], _ :: _ => .lt
  | _ :: _, [] => .gt
  | x :: xs, y :: ys =>
    match cmpNat x y with
    | .eq => cmpList xs ys
    | o => o

/-- Comparison of two maximal digit runs, as in src/main.rs lines 65–82:
strip leading zeros (`trim_start_matches('0')`), compare stripped digit
counts, then the stripped digits lexically, then the raw run lengths;
`.eq` corresponds to the Rust loop falling through to its next
iteration, which happens exactly when the runs are identical. -/
def cmpRun (r1 r2 : List Nat) : Ordering :=
  let t1 := r1.dropWhile (fun c => c == 48)
  let t2 := r2.dropWhile (fun c => c == 48)
  if t1.length ≠ t2.length then cmpNat t1.length t2.length
  else
    match cmpList t1 t2 with
    | .eq => cmpNat r1.length r2.length
    | o => o

/-- One pass of the `while ai < ab.len() && bi < bb.len()` loop of
`cmp_natural` (src/main.rs lines 51–92), structurally recursive on a fuel
argument; `cmp_natural` supplies fuel that provably exceeds the number of
loop iterations, so the fuel-exhausted clause is never reached.

The maximal digit run starting at `ai` (`while ai < ab.len() &&
ab[ai].is_ascii_digit() { ai += 1 }` plus the slice `&a[a_start..ai]`) is
expressed with `takeWhile`. -/
def cmpNaturalF : Nat → List Nat → List Nat → Nat → Nat → Ordering
  | 0, a, b, _, _ => cmpNat a.length b.length
  | fuel + 1, a, b, ai, bi =>
    if ai < a.length ∧ bi < b.length then
      if isDigit (a.getD ai 0) ∧ isDigit (b.getD bi 0) then
        let aRun := (a.drop ai).takeWhile isDigit
        let bRun := (b.drop bi).takeWhile isDigit
        match cmpRun aRun bRun with
        | .eq => cmpNaturalF fuel a b (ai + aRun.length) (bi + bRun.length)
        | o => o
      else
        let la := toLower (a.getD ai 0)
        let lb := toLower (b.getD bi 0)
        if la ≠ lb then cmpNat la lb
        else cmpNaturalF fuel a b (ai + 1) (bi + 1)
    else
      cmpNat a.length b.length

/-- `cmp_natural` (src/main.rs lines 43–95): natural-order comparison of
two byte strings, starting at indices `ai = bi = 0`. -/
def cmpNatural (a b : List Nat) : Ordering :=
  cmpNaturalF (a.length + b.length + 1) a b 0 0

/-- Stable insertion of `x` into a list already sorted by `cmpNatural`:
`x` passes over every element it is not strictly smaller than, so equal
keys keep their original relative order, as with Rust's stable
`slice::sort_by`. -/
def insertNat (x : List Nat) : List (List Nat) → List (List Nat)
  | [] => [x]
  | y :: ys => if cmpNatural x y = .lt then x :: y :: ys else y :: insertNat x ys

/-- Stable sort by `cmpNatural`, modelling
`zips.sort_by(|a, b| cmp_natural(..))` in `find_zip_files`. -/
def sortByNat (l : List (List Nat)) : List (List Nat) :=
  l.foldl (fun acc x => insertNat x acc) []

/-- `raw_name = entry.name().replace('\\', "/")` (src/main.rs line 181):
replace every backslash byte with a forward slash.  (For valid UTF-8 the
byte `0x5C` occurs only as the ASCII character `\`, so the per-character
replacement is exactly this byte map.) -/
def replaceBackslash (l : List Nat) : List Nat :=
  l.map (fun c => if c = 92 then 47 else c)

/-- `strip_drive_letter` (src/main.rs lines 104–112): drop a leading
`"C/"` or `"C\"`-style two-byte prefix. -/
def strip_drive_letter (path : List Nat) : List Nat :=
  if 2 ≤ path.length ∧ isAlpha (path.getD 0 0) ∧
      (path.getD 1 0 = 47 ∨ path.getD 1 0 = 92) then
    path.drop 2
  else
    path

/-- The composed path normalizer applied to each archive entry name in
`extract` (src/main.rs lines 181–182). -/
def normalizeEntryName (raw : List Nat) : List Nat :=
  strip_drive_letter (replaceBackslash raw)

/-- The Path Normalizer as the spec words it (for comparison with the
code's `normalizeEntryName`): replace every backslash separator with a
forward slash; then, if the first character is a single ASCII letter
immediately followed by a forward slash, drop that two-character prefix;
no other rewriting. -/
def normalizeSpec (raw : List Nat) : List Nat :=
  let unified := replaceBackslash raw
  if 2 ≤ unified.length ∧ isAlpha (unified.getD 0 0) ∧ unified.getD 1 0 = 47 then
    unified.drop 2
  else
    unified

/-- A drive-letter-style prefix: a single ASCII letter followed by a
separator as the first segment of a (already forward-slash-normalized)
path. -/
def hasDriveStyle (l : List Nat) : Bool :=
  decide (2 ≤ l.length) && isAlpha (l.getD 0 0) && (l.getD 1 0 == 47)

/-- A leading path separator, which would make the path absolute. -/
def startsWithSep (l : List Nat) : Bool := l.headD 0 == 47

/-! ## Archive locator: filesystem model

A directory tree with per-directory readability (whether `fs::read_dir`
succeeds on it).  `FSList` is a specialized list of children so that the
traversal functions are mutually structurally recursive. -/

mutual
inductive FSNode where
  | file : (name : List Nat) → FSNode
  | dir : (name : List Nat) → (readable : Bool) → (children : FSList) → FSNode
deriving DecidableEq
inductive FSList where
  | nil : FSList
  | cons : FSNode → FSList → FSList
deriving DecidableEq
end

/-- Index (from the right) of the last `.` byte in a file name. -/
def lastDotIdx : List Nat → Option Nat
  | [] => none
  | c :: cs =>
    match lastDotIdx cs with
    | some i => some (i + 1)
    | none => if c = 46 then some 0 else none

/-- Rust `Path::extension` applied to a single file-name component: the
portion after the final `.`, or `none` when there is no `.` or the name
begins with its only `.` (hidden files like `.zip` have no extension). -/
def extension (nm : List Nat) : Option (List Nat) :=
  match lastDotIdx nm with
  | none => none
  | some 0 => none
  | some i => some (nm.drop (i + 1))

/-- `str::eq_ignore_ascii_case`. -/
def eqIgnoreAsciiCase (a b : List Nat) : Bool :=
  a.map toLower == b.map toLower

/-- `path.extension().map_or(false, |e| e.eq_ignore_ascii_case("zip"))`
(src/main.rs line 36). -/
def isZipExt (nm : List Nat) : Bool :=
  match extension nm with
  | some e => eqIgnoreAsciiCase e (bytes "zip")
  | none => false

mutual
/-- One entry of a directory being scanned by `collect_zips`
(src/main.rs lines 31–39): a subdirectory is recursed into, a file is
collected when its extension is `zip` case-insensitively.  `p` is the
path of the containing directory; the entry's path is `p ++ "/" ++ name`. -/
def collect_zips_entry (p : List Nat) : FSNode → Except Unit (List (List Nat))
  | .file nm => .ok (if isZipExt nm then [p ++ 47 :: nm] else [])
  | .dir nm readable ch =>
    if readable then collect_zips (p ++ 47 :: nm) ch else .error ()
/-- `collect_zips` (src/main.rs lines 27–41) over the entries of one
directory: `fs::read_dir` order = child order; a read failure anywhere
propagates (`?`). -/
def collect_zips (p : List Nat) : FSList → Except Unit (List (List Nat))
  | .nil => .ok []
  | .cons c cs =>
    match collect_zips_entry p c with
    | .error e => .error e
    | .ok zs =>
      match collect_zips p cs with
      | .error e => .error e
      | .ok zs' => .ok (zs ++ zs')
end

/-- `find_zip_files` (src/main.rs lines 97–102): a missing or non-directory
root yields no zips (the `!dir.is_dir()` guard of `collect_zips`); an
unreadable directory is a fatal error; otherwise the collected paths are
sorted with `cmp_natural`.  `root = none` models a nonexistent source
root; `sp` is the textual source path. -/
def find_zip_files (sp : List Nat) (root : Option FSNode) :
    Except Unit (List (List Nat)) :=
  match root with
  | none => .ok []
  | some (.file _) => .ok []
  | some (.dir _ readable ch) =>
    if readable then
      match collect_zips sp ch with
      | .error e => .error e
      | .ok zs => .ok (sortByNat zs)
    else .error ()

mutual
/-- Every directory in the tree is readable. -/
def allReadable : FSNode → Bool
  | .file _ => true
  | .dir _ rd ch => rd && allReadableList ch
def allReadableList : FSList → Bool
  | .nil => true
  | .cons c cs => allReadable c && allReadableList cs
end

mutual
/-- All files below a node, in traversal (DFS preorder) order, as
`(full path, file name)` pairs, ignoring readability and extensions.
Used to state what `collect_zips` returns. -/
def allFiles_entry (p : List Nat) : FSNode → List (List Nat × List Nat)
  | .file nm => [(p ++ 47 :: nm, nm)]
  | .dir nm _ ch => allFiles (p ++ 47 :: nm) ch
def allFiles (p : List Nat) : FSList → List (List Nat × List Nat)
  | .nil => []
  | .cons c cs => allFiles_entry p c ++ allFiles p cs
end

/-! ## Extraction engine model

Archive contents and the outcomes of the fallible filesystem operations
(`create_dir_all`, `File::create`, `io::copy`) are part of the modelled
world: each file entry carries the outcome its environment would produce.
The mutable `files_extracted` counter, `errors` vector and destination
filesystem are threaded as explicit state. -/

structure FileEntry where
  /-- `entry.name()`: raw archive-native name. -/
  name : List Nat
  /-- `entry.is_dir()`. -/
  isDir : Bool
  /-- The entry's byte stream. -/
  content : List Nat
  /-- Whether `fs::create_dir_all(parent)` succeeds for this entry. -/
  mkdirOk : Bool
  /-- Whether `fs::File::create(&target)` succeeds. -/
  createOk : Bool
  /-- Whether `io::copy(&mut entry, &mut outfile)` succeeds. -/
  writeOk : Bool
deriving DecidableEq

/-- Result of `archive.by_index(j)`: a readable entry or an error. -/
inductive EntryRes where
  | readErr : EntryRes
  | ok : FileEntry → EntryRes
deriving DecidableEq

/-- What opening one archive yields: `corrupt` when `fs::File::open` or
`zip::ZipArchive::new` fails, otherwise the indexed entries. -/
inductive ArchiveData where
  | corrupt : ArchiveData
  | entries : List EntryRes → ArchiveData
deriving DecidableEq

/-- The stage at which a recoverable failure was recorded (the stage word
of the pushed `format!` string). -/
inductive ExtStage where
  | archiveOpen
  | entryRead
  | mkdir
  | createFile
  | writeFile
deriving DecidableEq

/-- One recorded error: the reporting archive's file name and the failing
stage (abstracting the formatted string pushed onto `errors`). -/
structure ExtError where
  zip : List Nat
  stage : ExtStage
deriving DecidableEq

/-- Content of a destination file: fully written, or left truncated by a
failed `io::copy` after a successful `File::create`. -/
inductive FileContent where
  | full : List Nat → FileContent
  | truncated : FileContent
deriving DecidableEq

/-- The accumulators of the extraction loop: destination writes in
chronological order, the `files_extracted` counter, the `errors` vector,
and the order in which archives were processed. -/
structure ExtractState where
  fs : List (List Nat × FileContent)
  filesExtracted : Nat
  errors : List ExtError
  trace : List (List Nat)
deriving DecidableEq

/-- Result of a completed `extract` run; `destRootEnsured` records
whether `fs::create_dir_all(dest_dir)` was invoked. -/
structure ExtractResult where
  fs : List (List Nat × FileContent)
  filesExtracted : Nat
  errors : List ExtError
  trace : List (List Nat)
  destRootEnsured : Bool
deriving DecidableEq

/-- `Path::file_name` (as used for `zip_name`): the final component. -/
def fileName (p : List Nat) : List Nat :=
  ((p.reverse.takeWhile (fun c => c != 47)).reverse)

/-- `Path::join`: appending a relative path, or replacing the base
entirely when the joined path is absolute. -/
def joinPath (base rel : List Nat) : List Nat :=
  if rel.headD 0 = 47 then rel else base ++ 47 :: rel

/-- Content found at path `k` after a sequence of writes: the latest
write wins. -/
def lookupLast (fsl : List (List Nat × FileContent)) (k : List Nat) :
    Option FileContent :=
  fsl.foldl (fun acc pr => if pr.1 = k then some pr.2 else acc) none

/-- Body of the per-entry loop of `extract` (src/main.rs lines 176–208):
directory entries are skipped; the name is normalized; `create_dir_all`,
`File::create` and `io::copy` each record one error and move on to the
next entry when they fail; a fully written file bumps the counter. -/
def processEntry (dest : List Nat) (zipName : List Nat)
    (st : ExtractState) : EntryRes → ExtractState
  | .readErr => { st with errors := st.errors ++ [⟨zipName, .entryRead⟩] }
  | .ok e =>
    if e.isDir then st
    else
      let clean := normalizeEntryName e.name
      let target := joinPath dest clean
      if e.mkdirOk = false then
        { st with errors := st.errors ++ [⟨zipName, .mkdir⟩] }
      else if e.createOk = false then
        { st with errors := st.errors ++ [⟨zipName, .createFile⟩] }
      else if e.writeOk = false then
        { st with fs := st.fs ++ [(target, .truncated)],
                  errors := st.errors ++ [⟨zipName, .writeFile⟩] }
      else
        { st with fs := st.fs ++ [(target, .full e.content)],
                  filesExtracted := st.filesExtracted + 1 }

/-- Body of the per-archive loop of `extract` (src/main.rs lines
166–223): an archive that cannot be opened or indexed records one error
and is skipped; otherwise its entries are processed in index order. -/
def runArchive (dest : List Nat) (adata : List Nat → ArchiveData)
    (st : ExtractState) (zipPath : List Nat) : ExtractState :=
  let zn := fileName zipPath
  let st := { st with trace := st.trace ++ [zipPath] }
  match adata zipPath with
  | .corrupt => { st with errors := st.errors ++ [⟨zn, .archiveOpen⟩] }
  | .entries es => es.foldl (processEntry dest zn) st

/-- The empty starting state of a run. -/
def initState : ExtractState := ⟨[], 0, [], []⟩

/-- The full archive loop over an ordered archive sequence. -/
def extractLoop (dest : List Nat) (adata : List Nat → ArchiveData)
    (zips : List (List Nat)) : ExtractState :=
  zips.foldl (runArchive dest adata) initState

/-- `extract` (src/main.rs lines 150–242): list the source's zip files
(`find_zip_files(source_dir)?` — a listing failure is fatal), return
early with nothing done when none were found, create the destination
root (`fs::create_dir_all(dest_dir)?` — failure, modelled by
`destCreatable = false`, is fatal), then run the archive loop. -/
def extract (sp : List Nat) (root : Option FSNode)
    (adata : List Nat → ArchiveData) (dest : List Nat)
    (destCreatable : Bool) : Except Unit ExtractResult :=
  match find_zip_files sp root with
  | .error e => .error e
  | .ok zips =>
    if zips.isEmpty then
      .ok ⟨[], 0, [], [], false⟩
    else if destCreatable = false then
      .error ()
    else
      let st := extractLoop dest adata zips
      .ok ⟨st.fs, st.filesExtracted, st.errors, st.trace, true⟩

/-! ## Proof devices for the comparator laws

`cmp_natural` walks both strings in lockstep; its behaviour is captured
by independently tokenizing each string into maximal digit runs and
case-folded single characters and comparing the token lists
lexicographically.  These definitions exist only to prove the order
laws; the claims themselves are stated about `cmpNatural`. -/

/-- A token of the lockstep walk: a maximal digit run (kept raw) or a
single case-folded non-digit character. -/
inductive NatTok where
  | run : List Nat → NatTok
  | ch : Nat → NatTok
deriving DecidableEq

/-- Tokenization of a byte string into maximal digit runs and folded
characters: a digit is prepended to the following run (so runs are
maximal), a non-digit becomes a folded character token. -/
def tokenize : List Nat → List NatTok
  | [] => []
  | c :: cs =>
    if isDigit c then
      match tokenize cs with
      | .run r :: ts => .run (c :: r) :: ts
      | ts => .run [c] :: ts
    else
      .ch (toLower c) :: tokenize cs

/-- Token comparison: digit runs by `cmpRun`; a run against a character
by the run's first byte (a digit, which `to_ascii_lowercase` fixes);
characters by their folded byte values. -/
def cmpTok : NatTok → NatTok → Ordering
  | .run r1, .run r2 => cmpRun r1 r2
  | .run r1, .ch c2 => cmpNat (r1.headD 0) c2
  | .ch c1, .run r2 => cmpNat c1 (r2.headD 0)
  | .ch c1, .ch c2 => cmpNat c1 c2

/-- Lexicographic comparison of token lists; a strict prefix sorts
first. -/
def cmpTokList : List NatTok → List NatTok → Ordering
  | [], [] => .eq
  | [], _ :: _ => .lt
  | _ :: _, [] => .gt
  | t1 :: r1, t2 :: r2 =>
    match cmpTok t1 t2 with
    | .eq => cmpTokList r1 r2
    | o => o

/-- Well-formed tokens, as `tokenize` produces them: runs are nonempty
all-digit strings, characters are non-digits. -/
def WFTok : NatTok → Prop
  | .run r => r ≠ [] ∧ ∀ c ∈ r, isDigit c = true
  | .ch c => isDigit c = false

/-- An archive entry that extracts without any failure. -/
def goodRes : EntryRes → Bool
  | .readErr => false
  | .ok e => e.isDir || (e.mkdirOk && e.createOk && e.writeOk)

/-- Number of non-directory (file) entries in an archive index. -/
def countFiles (es : List EntryRes) : Nat :=
  es.countP fun er =>
    match er with
    | .readErr => false
    | .ok e => !e.isDir

/-- Numeric value of a digit run (the spec's "numeric value" of a run of
ASCII digits), read left to right in base 10. -/
def runValue (r : List Nat) : Nat :=
  r.foldl (fun acc c => acc * 10 + (c - 48)) 0

/-! ## Basic lemmas about the byte-level comparators -/

theorem cmpNat_eq_lt {a b : Nat} : cmpNat a b = .lt ↔ a < b := by
  unfold cmpNat
  split <;> rename_i h1
  · simp [h1]
  · split <;> rename_i h2 <;> simp <;> omega

theorem cmpNat_eq_eq {a b : Nat} : cmpNat a b = .eq ↔ a = b := by
  unfold cmpNat
  split <;> rename_i h1
  · simp; omega
  · split <;> rename_i h2 <;> simp <;> omega

theorem cmpNat_eq_gt {a b : Nat} : cmpNat a b = .gt ↔ b < a := by
  unfold cmpNat
  split <;> rename_i h1
  · simp; omega
  · split <;> rename_i h2 <;> simp <;> omega

theorem cmpNat_swap (a b : Nat) : (cmpNat a b).swap = cmpNat b a := by
  rcases Nat.lt_trichotomy a b with h | h | h
  · rw [cmpNat_eq_lt.mpr h, cmpNat_eq_gt.mpr h]; rfl
  · rw [cmpNat_eq_eq.mpr h, cmpNat_eq_eq.mpr h.symm]; rfl
  · rw [cmpNat_eq_gt.mpr h, cmpNat_eq_lt.mpr h]; rfl

theorem cmpList_eq_iff : ∀ (x y : List Nat), cmpList x y = .eq ↔ x = y
  | [], [] => by simp [cmpList]
  | [], _ :: _ => by simp [cmpList]
  | _ :: _, [] => by simp [cmpList]
  | a :: x, b :: y => by
    have ih := cmpList_eq_iff x y
    simp only [cmpList]
    cases h : cmpNat a b
    · have hab : a < b := cmpNat_eq_lt.mp h
      constructor
      · intro hc; exact Ordering.noConfusion hc
      · intro hc; injection hc with h1 _; omega
    · have hab : a = b := cmpNat_eq_eq.mp h
      subst hab
      rw [ih]
      simp
    · have hab : b < a := cmpNat_eq_gt.mp h
      constructor
      · intro hc; exact Ordering.noConfusion hc
      · intro hc; injection hc with h1 _; omega

theorem cmpList_swap : ∀ (x y : List Nat), (cmpList x y).swap = cmpList y x
  | [], [] => rfl
  | [], _ :: _ => rfl
  | _ :: _, [] => rfl
  | a :: x, b :: y => by
    have ih := cmpList_swap x y
    simp only [cmpList, ← cmpNat_swap a b]
    cases h : cmpNat a b
    · rfl
    · rw [← ih]; cases cmpList x y <;> rfl
    · rfl

theorem cmpList_lt_trans :
    ∀ (x y z : List Nat), cmpList x y = .lt → cmpList y z = .lt → cmpList x z = .lt
  | [], [], _, h1, _ => absurd h1 (by simp [cmpList])
  | [], _ :: _, [], _, h2 => absurd h2 (by simp [cmpList])
  | [], _ :: _, _ :: _, _, _ => rfl
  | _ :: _, [], _, h1, _ => absurd h1 (by simp [cmpList])
  | _ :: _, _ :: _, [], _, h2 => absurd h2 (by simp [cmpList])
  | a :: x, b :: y, c :: z, h1, h2 => by
    simp only [cmpList] at h1 h2 ⊢
    cases hab : cmpNat a b <;> rw [hab] at h1 <;>
      cases hbc : cmpNat b c <;> rw [hbc] at h2
    · rw [cmpNat_eq_lt.mpr (Nat.lt_trans (cmpNat_eq_lt.mp hab) (cmpNat_eq_lt.mp hbc))]
    · rw [cmpNat_eq_lt.mpr ((cmpNat_eq_eq.mp hbc) ▸ (cmpNat_eq_lt.mp hab))]
    · exact Ordering.noConfusion h2
    · rw [cmpNat_eq_lt.mpr ((cmpNat_eq_eq.mp hab) ▸ (cmpNat_eq_lt.mp hbc))]
    · rw [cmpNat_eq_eq.mpr ((cmpNat_eq_eq.mp hab).trans (cmpNat_eq_eq.mp hbc))]
      exact cmpList_lt_trans x y z h1 h2
    · exact Ordering.noConfusion h2
    · exact Ordering.noConfusion h1
    · exact Ordering.noConfusion h1
    · exact Ordering.noConfusion h1

/-! ## Digit and case-fold facts -/

theorem isDigit_toLower (c : Nat) : isDigit (toLower c) = isDigit c := by
  unfold isDigit toLower
  split <;> rename_i h
  · simp only [decide_eq_decide]; omega
  · rfl

theorem toLower_digit {c : Nat} (h : isDigit c = true) : toLower c = c := by
  unfold isDigit at h
  unfold toLower
  rw [if_neg (by simp at h; omega)]

theorem digit_bounds {c : Nat} (h : isDigit c = true) : 48 ≤ c ∧ c ≤ 57 := by
  simpa [isDigit] using h

theorem nondigit_bounds {c : Nat} (h : isDigit c = false) : c < 48 ∨ 57 < c := by
  simp [isDigit] at h
  omega

/-! ## Helper list lemmas -/

theorem length_dropWhile_le' (p : Nat → Bool) :
    ∀ (l : List Nat), (l.dropWhile p).length ≤ l.length
  | [] => Nat.le_refl _
  | a :: l => by
    rw [List.dropWhile_cons]
    split
    · exact Nat.le_trans (length_dropWhile_le' p l) (by simp)
    · simp

theorem length_takeWhile_le' (p : Nat → Bool) :
    ∀ (l : List Nat), (l.takeWhile p).length ≤ l.length
  | [] => Nat.le_refl _
  | a :: l => by
    rw [List.takeWhile_cons]
    split
    · simpa using length_takeWhile_le' p l
    · simp

theorem dropWhile_eq_drop_takeWhile (p : Nat → Bool) :
    ∀ (l : List Nat), l.dropWhile p = l.drop (l.takeWhile p).length
  | [] => rfl
  | a :: l => by
    rw [List.dropWhile_cons, List.takeWhile_cons]
    split
    · simpa using dropWhile_eq_drop_takeWhile p l
    · simp

/-- Two lists with the same leading-zero-stripped remainder and the same
length are equal: the stripped prefixes are runs of `48` of equal
length. -/
theorem eq_of_dropWhile_zero_eq {l m : List Nat}
    (hd : l.dropWhile (fun c => c == 48) = m.dropWhile (fun c => c == 48))
    (hl : l.length = m.length) : l = m := by
  have h1 := List.takeWhile_append_dropWhile (p := fun c => c == 48) (l := l)
  have h2 := List.takeWhile_append_dropWhile (p := fun c => c == 48) (l := m)
  have t1 : l.takeWhile (fun c => c == 48) =
      List.replicate (l.takeWhile (fun c => c == 48)).length 48 := by
    apply List.eq_replicate_of_mem
    intro b hb
    simpa using List.mem_takeWhile_imp hb
  have t2 : m.takeWhile (fun c => c == 48) =
      List.replicate (m.takeWhile (fun c => c == 48)).length 48 := by
    apply List.eq_replicate_of_mem
    intro b hb
    simpa using List.mem_takeWhile_imp hb
  have e1 : (l.takeWhile (fun c => c == 48)).length +
      (l.dropWhile (fun c => c == 48)).length = l.length := by
    rw [← List.length_append, h1]
  have e2 : (m.takeWhile (fun c => c == 48)).length +
      (m.dropWhile (fun c => c == 48)).length = m.length := by
    rw [← List.length_append, h2]
  have hlen : (l.takeWhile (fun c => c == 48)).length =
      (m.takeWhile (fun c => c == 48)).length := by
    rw [hd] at e1
    omega
  rw [← h1, ← h2, t1, t2, hlen, hd]

/-! ## Digit-run comparison laws -/

theorem cmpRun_eq_iff {r1 r2 : List Nat} : cmpRun r1 r2 = .eq ↔ r1 = r2 := by
  simp only [cmpRun]
  constructor
  · intro h
    split at h
    · exact absurd (cmpNat_eq_eq.mp h) (by assumption)
    · rename_i hlen
      cases hc : cmpList (r1.dropWhile fun c => c == 48) (r2.dropWhile fun c => c == 48) <;>
        rw [hc] at h
      · exact Ordering.noConfusion h
      · exact eq_of_dropWhile_zero_eq ((cmpList_eq_iff _ _).mp hc) (cmpNat_eq_eq.mp h)
      · exact Ordering.noConfusion h
  · rintro rfl
    rw [if_neg (by simp), (cmpList_eq_iff _ _).mpr rfl]
    exact cmpNat_eq_eq.mpr rfl

theorem cmpRun_swap (r1 r2 : List Nat) : (cmpRun r1 r2).swap = cmpRun r2 r1 := by
  simp only [cmpRun]
  by_cases hlen : (r1.dropWhile fun c => c == 48).length =
      (r2.dropWhile fun c => c == 48).length
  · rw [if_neg (by omega), if_neg (by omega),
      ← cmpList_swap (r1.dropWhile fun c => c == 48) (r2.dropWhile fun c => c == 48)]
    cases hc : cmpList (r1.dropWhile fun c => c == 48) (r2.dropWhile fun c => c == 48)
    · rfl
    · exact cmpNat_swap _ _
    · rfl
  · rw [if_pos (by omega), if_pos (by omega)]
    exact cmpNat_swap _ _

theorem cmpRun_eq_lt_iff {r1 r2 : List Nat} : cmpRun r1 r2 = .lt ↔
    ((r1.dropWhile fun c => c == 48).length < (r2.dropWhile fun c => c == 48).length ∨
     ((r1.dropWhile fun c => c == 48).length = (r2.dropWhile fun c => c == 48).length ∧
       cmpList (r1.dropWhile fun c => c == 48) (r2.dropWhile fun c => c == 48) = .lt) ∨
     ((r1.dropWhile fun c => c == 48) = (r2.dropWhile fun c => c == 48) ∧
       r1.length < r2.length)) := by
  simp only [cmpRun]
  by_cases hlen : (r1.dropWhile fun c => c == 48).length =
      (r2.dropWhile fun c => c == 48).length
  · rw [if_neg (by omega)]
    cases hc : cmpList (r1.dropWhile fun c => c == 48) (r2.dropWhile fun c => c == 48)
    · constructor
      · intro _; exact Or.inr (Or.inl ⟨hlen, rfl⟩)
      · intro _; rfl
    · rw [cmpNat_eq_lt]
      constructor
      · intro h; exact Or.inr (Or.inr ⟨(cmpList_eq_iff _ _).mp hc, h⟩)
      · rintro (h | ⟨_, h⟩ | ⟨_, h⟩)
        · omega
        · exact Ordering.noConfusion h
        · exact h
    · constructor
      · intro h; exact Ordering.noConfusion h
      · rintro (h | ⟨_, h⟩ | ⟨heq, _⟩)
        · exact absurd h (by omega)
        · exact Ordering.noConfusion h
        · rw [(cmpList_eq_iff _ _).mpr heq] at hc; exact Ordering.noConfusion hc
  · rw [if_pos (by omega), cmpNat_eq_lt]
    constructor
    · intro h; exact Or.inl h
    · rintro (h | ⟨he, _⟩ | ⟨heq, _⟩)
      · exact h
      · exact absurd he hlen
      · exact absurd (congrArg List.length heq) hlen

theorem cmpRun_lt_trans {r1 r2 r3 : List Nat}
    (h1 : cmpRun r1 r2 = .lt) (h2 : cmpRun r2 r3 = .lt) : cmpRun r1 r3 = .lt := by
  rw [cmpRun_eq_lt_iff] at h1 h2 ⊢
  rcases h1 with h1 | ⟨h1a, h1b⟩ | ⟨h1a, h1b⟩ <;>
    rcases h2 with h2 | ⟨h2a, h2b⟩ | ⟨h2a, h2b⟩
  · exact Or.inl (by omega)
  · exact Or.inl (by omega)
  · have := congrArg List.length h2a; exact Or.inl (by omega)
  · exact Or.inl (by omega)
  · exact Or.inr (Or.inl ⟨h1a.trans h2a, cmpList_lt_trans _ _ _ h1b h2b⟩)
  · exact Or.inr (Or.inl ⟨by rw [h1a, h2a], by rw [← h2a]; exact h1b⟩)
  · have := congrArg List.length h1a; exact Or.inl (by omega)
  · exact Or.inr (Or.inl ⟨by rw [h1a]; exact h2a, by rw [h1a]; exact h2b⟩)
  · exact Or.inr (Or.inr ⟨h1a.trans h2a, by omega⟩)

/-! ## Token comparison laws -/

theorem run_headD_digit {r : List Nat} (h : WFTok (.run r)) : isDigit (r.headD 0) = true := by
  simp only [WFTok] at h
  obtain ⟨hne, hall⟩ := h
  cases r with
  | nil => exact absurd rfl hne
  | cons a r' => exact hall a (by simp)

theorem cmpTok_refl (t : NatTok) : cmpTok t t = .eq := by
  cases t with
  | run r => exact cmpRun_eq_iff.mpr rfl
  | ch c => exact cmpNat_eq_eq.mpr rfl

theorem cmpTok_swap (t u : NatTok) : (cmpTok t u).swap = cmpTok u t := by
  cases t <;> cases u <;> simp only [cmpTok]
  · exact cmpRun_swap _ _
  · exact cmpNat_swap _ _
  · exact cmpNat_swap _ _
  · exact cmpNat_swap _ _

theorem cmpTok_eq_iff {t u : NatTok} (ht : WFTok t) (hu : WFTok u) :
    cmpTok t u = .eq ↔ t = u := by
  cases t with
  | run r1 =>
    cases u with
    | run r2 => simp only [cmpTok, cmpRun_eq_iff, NatTok.run.injEq]
    | ch c2 =>
      simp only [cmpTok]
      constructor
      · intro h
        have he : r1.headD 0 = c2 := cmpNat_eq_eq.mp h
        have hd := run_headD_digit ht
        rw [he] at hd
        simp only [WFTok] at hu
        rw [hu] at hd
        exact Bool.noConfusion hd
      · intro h; exact NatTok.noConfusion h
  | ch c1 =>
    cases u with
    | run r2 =>
      simp only [cmpTok]
      constructor
      · intro h
        have he : c1 = r2.headD 0 := cmpNat_eq_eq.mp h
        have hd := run_headD_digit hu
        rw [← he] at hd
        simp only [WFTok] at ht
        rw [ht] at hd
        exact Bool.noConfusion hd
      · intro h; exact NatTok.noConfusion h
    | ch c2 => simp only [cmpTok, cmpNat_eq_eq, NatTok.ch.injEq]

theorem cmpTok_lt_trans {t u v : NatTok} (ht : WFTok t) (hu : WFTok u) (hv : WFTok v)
    (h1 : cmpTok t u = .lt) (h2 : cmpTok u v = .lt) : cmpTok t v = .lt := by
  cases t with
  | run r1 =>
    cases u with
    | run r2 =>
      cases v with
      | run r3 => exact cmpRun_lt_trans h1 h2
      | ch c3 =>
        simp only [cmpTok] at h2 ⊢
        rw [cmpNat_eq_lt] at h2 ⊢
        have d1 := digit_bounds (run_headD_digit ht)
        have d2 := digit_bounds (run_headD_digit hu)
        have d3 := nondigit_bounds (by simpa [WFTok] using hv)
        omega
    | ch c2 =>
      cases v with
      | run r3 =>
        simp only [cmpTok] at h1 h2
        rw [cmpNat_eq_lt] at h1 h2
        have d1 := digit_bounds (run_headD_digit ht)
        have d3 := digit_bounds (run_headD_digit hv)
        have d2 := nondigit_bounds (by simpa [WFTok] using hu)
        exact absurd d2 (by omega)
      | ch c3 =>
        simp only [cmpTok] at h1 h2 ⊢
        rw [cmpNat_eq_lt] at h1 h2 ⊢
        omega
  | ch c1 =>
    cases u with
    | run r2 =>
      cases v with
      | run r3 =>
        simp only [cmpTok] at h1 ⊢
        rw [cmpNat_eq_lt] at h1 ⊢
        have d2 := digit_bounds (run_headD_digit hu)
        have d3 := digit_bounds (run_headD_digit hv)
        have d1 := nondigit_bounds (by simpa [WFTok] using ht)
        omega
      | ch c3 =>
        simp only [cmpTok] at h1 h2 ⊢
        rw [cmpNat_eq_lt] at h1 h2 ⊢
        omega
    | ch c2 =>
      cases v with
      | run r3 =>
        simp only [cmpTok] at h1 h2 ⊢
        rw [cmpNat_eq_lt] at h1 h2 ⊢
        omega
      | ch c3 =>
        simp only [cmpTok] at h1 h2 ⊢
        rw [cmpNat_eq_lt] at h1 h2 ⊢
        omega

theorem cmpTokList_swap : ∀ (x y : List NatTok), (cmpTokList x y).swap = cmpTokList y x
  | [], [] => rfl
  | [], _ :: _ => rfl
  | _ :: _, [] => rfl
  | t :: x, u :: y => by
    have ih := cmpTokList_swap x y
    simp only [cmpTokList, ← cmpTok_swap t u]
    cases h : cmpTok t u
    · rfl
    · rw [← ih]; cases cmpTokList x y <;> rfl
    · rfl

theorem cmpTokList_eq_iff : ∀ (x y : List NatTok),
    (∀ t ∈ x, WFTok t) → (∀ t ∈ y, WFTok t) → (cmpTokList x y = .eq ↔ x = y)
  | [], [], _, _ => by simp [cmpTokList]
  | [], _ :: _, _, _ => by simp [cmpTokList]
  | _ :: _, [], _, _ => by simp [cmpTokList]
  | t :: x, u :: y, hx, hy => by
    have ih := cmpTokList_eq_iff x y (fun a ha => hx a (List.mem_cons_of_mem _ ha))
      (fun a ha => hy a (List.mem_cons_of_mem _ ha))
    simp only [cmpTokList]
    cases h : cmpTok t u
    · constructor
      · intro hc; exact Ordering.noConfusion hc
      · intro hc
        injection hc with h1 h2
        rw [(cmpTok_eq_iff (hx t (by simp)) (hy u (by simp))).mpr h1] at h
        exact Ordering.noConfusion h
    · have he := (cmpTok_eq_iff (hx t (by simp)) (hy u (by simp))).mp h
      subst he
      rw [ih]
      simp
    · constructor
      · intro hc; exact Ordering.noConfusion hc
      · intro hc
        injection hc with h1 h2
        rw [(cmpTok_eq_iff (hx t (by simp)) (hy u (by simp))).mpr h1] at h
        exact Ordering.noConfusion h

theorem cmpTokList_lt_trans : ∀ (x y z : List NatTok),
    (∀ t ∈ x, WFTok t) → (∀ t ∈ y, WFTok t) → (∀ t ∈ z, WFTok t) →
    cmpTokList x y = .lt → cmpTokList y z = .lt → cmpTokList x z = .lt
  | [], [], _, _, _, _, h1, _ => absurd h1 (by simp [cmpTokList])
  | [], _ :: _, [], _, _, _, _, h2 => absurd h2 (by simp [cmpTokList])
  | [], _ :: _, _ :: _, _, _, _, _, _ => rfl
  | _ :: _, [], _, _, _, _, h1, _ => absurd h1 (by simp [cmpTokList])
  | _ :: _, _ :: _, [], _, _, _, _, h2 => absurd h2 (by simp [cmpTokList])
  | t :: x, u :: y, v :: z, hx, hy, hz, h1, h2 => by
    simp only [cmpTokList] at h1 h2 ⊢
    have hwt := hx t (by simp)
    have hwu := hy u (by simp)
    have hwv := hz v (by simp)
    cases htu : cmpTok t u <;> rw [htu] at h1 <;>
      cases huv : cmpTok u v <;> rw [huv] at h2
    · rw [cmpTok_lt_trans hwt hwu hwv htu huv]
    · have he := (cmpTok_eq_iff hwu hwv).mp huv
      subst he
      rw [htu]
    · exact Ordering.noConfusion h2
    · have he := (cmpTok_eq_iff hwt hwu).mp htu
      subst he
      rw [huv]
    · have e1 := (cmpTok_eq_iff hwt hwu).mp htu
      subst e1
      have e2 := (cmpTok_eq_iff hwt hwv).mp huv
      subst e2
      rw [cmpTok_refl]
      exact cmpTokList_lt_trans x y z (fun a ha => hx a (List.mem_cons_of_mem _ ha))
        (fun a ha => hy a (List.mem_cons_of_mem _ ha))
        (fun a ha => hz a (List.mem_cons_of_mem _ ha)) h1 h2
    · exact Ordering.noConfusion h2
    · exact Ordering.noConfusion h1
    · exact Ordering.noConfusion h1
    · exact Ordering.noConfusion h1

/-! ## Tokenization lemmas -/

theorem tokenize_cons (c : Nat) (cs : List Nat) :
    tokenize (c :: cs) =
      if isDigit c then
        (match tokenize cs with
         | .run r :: ts => .run (c :: r) :: ts
         | ts => .run [c] :: ts)
      else .ch (toLower c) :: tokenize cs := rfl

theorem tokenize_nondigit_cons {c : Nat} (cs : List Nat) (h : isDigit c = false) :
    tokenize (c :: cs) = .ch (toLower c) :: tokenize cs := by
  rw [tokenize_cons, if_neg (by simp [h])]

theorem tokenize_digit_cons : ∀ (cs : List Nat) (c : Nat), isDigit c = true →
    tokenize (c :: cs) =
      .run ((c :: cs).takeWhile isDigit) :: tokenize ((c :: cs).dropWhile isDigit)
  | [], c, h => by
    rw [tokenize_cons, if_pos h]
    simp [tokenize, List.takeWhile_cons, List.dropWhile_cons, h]
  | d :: cs', c, h => by
    by_cases hd : isDigit d = true
    · have htok := tokenize_digit_cons cs' d hd
      have htw : (d :: cs').takeWhile isDigit = d :: cs'.takeWhile isDigit := by
        simp [List.takeWhile_cons, hd]
      rw [tokenize_cons, if_pos h, htok, htw]
      simp [List.takeWhile_cons, List.dropWhile_cons, h, hd]
    · have hd' : isDigit d = false := by simpa using hd
      have htok := tokenize_nondigit_cons cs' hd'
      rw [tokenize_cons, if_pos h, htok]
      simp [List.takeWhile_cons, List.dropWhile_cons, h, hd', ← htok]

theorem tokenize_ne_nil : ∀ {l : List Nat}, l ≠ [] → tokenize l ≠ []
  | [], h => absurd rfl h
  | c :: cs, _ => by
    by_cases h : isDigit c = true
    · rw [tokenize_digit_cons cs c h]; simp
    · rw [tokenize_nondigit_cons cs (by simpa using h)]; simp

theorem tokenize_wf : ∀ (n : Nat) (l : List Nat), l.length ≤ n → ∀ t ∈ tokenize l, WFTok t
  | _, [], _ => by simp [tokenize]
  | 0, c :: cs, hlen => by simp at hlen
  | n + 1, c :: cs, hlen => by
    by_cases h : isDigit c = true
    · rw [tokenize_digit_cons cs c h]
      intro t ht
      rcases List.mem_cons.mp ht with rfl | ht'
      · refine ⟨?_, ?_⟩
        · simp [List.takeWhile_cons, h]
        · intro x hx; exact List.mem_takeWhile_imp hx
      · refine tokenize_wf n ((c :: cs).dropWhile isDigit) ?_ t ht'
        have h1 : (c :: cs).dropWhile isDigit = cs.dropWhile isDigit := by
          simp [List.dropWhile_cons, h]
        rw [h1]
        have h2 := length_dropWhile_le' isDigit cs
        simp at hlen
        omega
    · rw [tokenize_nondigit_cons cs (by simpa using h)]
      intro t ht
      rcases List.mem_cons.mp ht with rfl | ht'
      · show isDigit (toLower c) = false
        rw [isDigit_toLower]
        simpa using h
      · exact tokenize_wf n cs (by simp at hlen; omega) t ht'

theorem tokenize_wf' (l : List Nat) : ∀ t ∈ tokenize l, WFTok t :=
  tokenize_wf l.length l (Nat.le_refl _)

theorem lower_split : ∀ (a b : List Nat), a.map toLower = b.map toLower →
    a.takeWhile isDigit = b.takeWhile isDigit ∧
    (a.dropWhile isDigit).map toLower = (b.dropWhile isDigit).map toLower
  | [], [], _ => ⟨rfl, rfl⟩
  | [], _ :: _, h => by simp at h
  | _ :: _, [], h => by simp at h
  | a :: as, b :: bs, h => by
    simp only [List.map_cons, List.cons.injEq] at h
    obtain ⟨h0, h1⟩ := h
    have hdig : isDigit a = isDigit b := by
      rw [← isDigit_toLower a, h0, isDigit_toLower]
    by_cases ha : isDigit a = true
    · have hb : isDigit b = true := by rw [← hdig]; exact ha
      have hab : a = b := by rw [← toLower_digit ha, ← toLower_digit hb, h0]
      obtain ⟨ih1, ih2⟩ := lower_split as bs h1
      subst hab
      constructor
      · simp [List.takeWhile_cons, ha, ih1]
      · simp [List.dropWhile_cons, ha, ih2]
    · have ha' : isDigit a = false := by simpa using ha
      have hb' : isDigit b = false := by rw [← hdig]; exact ha'
      constructor
      · simp [List.takeWhile_cons, ha', hb']
      · simp [List.dropWhile_cons, ha', hb', h0, h1]

theorem tokenize_congr : ∀ (n : Nat) (a b : List Nat), a.length ≤ n →
    a.map toLower = b.map toLower → tokenize a = tokenize b
  | _, [], [], _, _ => rfl
  | _, [], _ :: _, _, h => by simp at h
  | _, _ :: _, [], _, h => by simp at h
  | 0, _ :: _, _ :: _, hlen, _ => by simp at hlen
  | n + 1, a :: as, b :: bs, hlen, h => by
    have h' := h
    simp only [List.map_cons, List.cons.injEq] at h'
    obtain ⟨h0, h1⟩ := h'
    have hdig : isDigit a = isDigit b := by
      rw [← isDigit_toLower a, h0, isDigit_toLower]
    obtain ⟨hsp1, hsp2⟩ := lower_split (a :: as) (b :: bs) h
    by_cases ha : isDigit a = true
    · have hb : isDigit b = true := by rw [← hdig]; exact ha
      rw [tokenize_digit_cons as a ha, tokenize_digit_cons bs b hb, hsp1]
      congr 1
      refine tokenize_congr n ((a :: as).dropWhile isDigit) ((b :: bs).dropWhile isDigit)
        ?_ hsp2
      have he : (a :: as).dropWhile isDigit = as.dropWhile isDigit := by
        simp [List.dropWhile_cons, ha]
      rw [he]
      have h2 := length_dropWhile_le' isDigit as
      simp at hlen
      omega
    · have ha' : isDigit a = false := by simpa using ha
      have hb' : isDigit b = false := by rw [← hdig]; exact ha'
      rw [tokenize_nondigit_cons as ha', tokenize_nondigit_cons bs hb', h0]
      congr 1
      exact tokenize_congr n as bs (by simp at hlen; omega) h1

/-! ## Correspondence between the loop and token-list comparison -/

theorem cmpNaturalF_eq_tok : ∀ (fuel : Nat) (a b : List Nat) (i : Nat),
    i ≤ a.length → i ≤ b.length → a.length - i + (b.length - i) < fuel →
    cmpNaturalF fuel a b i i = cmpTokList (tokenize (a.drop i)) (tokenize (b.drop i))
  | 0, a, b, i, ha, hb, hf => absurd hf (by omega)
  | fuel + 1, a, b, i, ha, hb, hf => by
    by_cases h1 : i < a.length ∧ i < b.length
    · obtain ⟨h1a, h1b⟩ := h1
      have hda : a.drop i = a[i] :: a.drop (i + 1) := List.drop_eq_getElem_cons h1a
      have hdb : b.drop i = b[i] :: b.drop (i + 1) := List.drop_eq_getElem_cons h1b
      simp only [cmpNaturalF]
      rw [if_pos ⟨h1a, h1b⟩, List.getD_eq_getElem a 0 h1a, List.getD_eq_getElem b 0 h1b]
      by_cases hd : isDigit a[i] = true ∧ isDigit b[i] = true
      · obtain ⟨hdA, hdB⟩ := hd
        rw [if_pos ⟨hdA, hdB⟩]
        have htA : tokenize (a.drop i) =
            .run ((a.drop i).takeWhile isDigit) ::
              tokenize ((a.drop i).dropWhile isDigit) := by
          rw [hda, tokenize_digit_cons _ _ hdA, ← hda]
        have htB : tokenize (b.drop i) =
            .run ((b.drop i).takeWhile isDigit) ::
              tokenize ((b.drop i).dropWhile isDigit) := by
          rw [hdb, tokenize_digit_cons _ _ hdB, ← hdb]
        rw [htA, htB]
        cases hcr : cmpRun ((a.drop i).takeWhile isDigit) ((b.drop i).takeWhile isDigit)
        · simp only [cmpTokList, cmpTok, hcr]
        · have hrun : (a.drop i).takeWhile isDigit = (b.drop i).takeWhile isDigit :=
            cmpRun_eq_iff.mp hcr
          simp only [cmpTokList, cmpTok, hcr]
          have hLa : ((a.drop i).takeWhile isDigit).length ≤ a.length - i := by
            have h2 := length_takeWhile_le' isDigit (a.drop i)
            rwa [List.length_drop] at h2
          have hLb : ((a.drop i).takeWhile isDigit).length ≤ b.length - i := by
            have h2 := length_takeWhile_le' isDigit (b.drop i)
            rw [List.length_drop] at h2
            rw [hrun]
            exact h2
          have hL1 : 1 ≤ ((a.drop i).takeWhile isDigit).length := by
            rw [hda, List.takeWhile_cons, if_pos hdA]
            simp
          have eA : (a.drop i).dropWhile isDigit =
              a.drop (i + ((a.drop i).takeWhile isDigit).length) := by
            rw [dropWhile_eq_drop_takeWhile, List.drop_drop]
          have eB : (b.drop i).dropWhile isDigit =
              b.drop (i + ((a.drop i).takeWhile isDigit).length) := by
            rw [dropWhile_eq_drop_takeWhile, List.drop_drop, ← hrun]
          rw [← hrun, eA, eB]
          exact cmpNaturalF_eq_tok fuel a b (i + ((a.drop i).takeWhile isDigit).length)
            (by omega) (by omega) (by omega)
        · simp only [cmpTokList, cmpTok, hcr]
      · rw [if_neg hd]
        by_cases hA : isDigit a[i] = true
        · have hB : isDigit b[i] = false := by
            cases hBv : isDigit b[i]
            · rfl
            · exact absurd ⟨hA, hBv⟩ hd
          have htB : tokenize (b.drop i) =
              .ch (toLower b[i]) :: tokenize (b.drop (i + 1)) := by
            rw [hdb, tokenize_nondigit_cons _ hB]
          have haTW : (a.drop i).takeWhile isDigit =
              a[i] :: (a.drop (i + 1)).takeWhile isDigit := by
            rw [hda, List.takeWhile_cons, if_pos hA]
          have htA : tokenize (a.drop i) =
              .run ((a.drop i).takeWhile isDigit) ::
                tokenize ((a.drop i).dropWhile isDigit) := by
            rw [hda, tokenize_digit_cons _ _ hA, ← hda]
          have hne : toLower a[i] ≠ toLower b[i] := by
            intro hcontra
            have e1 : isDigit (toLower a[i]) = true := by
              rw [isDigit_toLower]; exact hA
            rw [hcontra, isDigit_toLower, hB] at e1
            exact Bool.noConfusion e1
          rw [if_pos hne, htA, htB]
          simp only [cmpTokList, cmpTok, haTW, List.headD_cons]
          rw [toLower_digit hA]
          cases hcn : cmpNat a[i] (toLower b[i])
          · rfl
          · exfalso
            have e := cmpNat_eq_eq.mp hcn
            have e1 : isDigit (toLower b[i]) = true := by rw [← e]; exact hA
            rw [isDigit_toLower, hB] at e1
            exact Bool.noConfusion e1
          · rfl
        · have hA' : isDigit a[i] = false := by simpa using hA
          by_cases hB : isDigit b[i] = true
          · have htA : tokenize (a.drop i) =
                .ch (toLower a[i]) :: tokenize (a.drop (i + 1)) := by
              rw [hda, tokenize_nondigit_cons _ hA']
            have hbTW : (b.drop i).takeWhile isDigit =
                b[i] :: (b.drop (i + 1)).takeWhile isDigit := by
              rw [hdb, List.takeWhile_cons, if_pos hB]
            have htB : tokenize (b.drop i) =
                .run ((b.drop i).takeWhile isDigit) ::
                  tokenize ((b.drop i).dropWhile isDigit) := by
              rw [hdb, tokenize_digit_cons _ _ hB, ← hdb]
            have hne : toLower a[i] ≠ toLower b[i] := by
              intro hcontra
              have e1 : isDigit (toLower b[i]) = true := by
                rw [isDigit_toLower]; exact hB
              rw [← hcontra, isDigit_toLower, hA'] at e1
              exact Bool.noConfusion e1
            rw [if_pos hne, htA, htB]
            simp only [cmpTokList, cmpTok, hbTW, List.headD_cons]
            rw [toLower_digit hB]
            cases hcn : cmpNat (toLower a[i]) b[i]
            · rfl
            · exfalso
              have e := cmpNat_eq_eq.mp hcn
              have e1 : isDigit (toLower a[i]) = true := by rw [e]; exact hB
              rw [isDigit_toLower, hA'] at e1
              exact Bool.noConfusion e1
            · rfl
          · have hB' : isDigit b[i] = false := by simpa using hB
            have htA : tokenize (a.drop i) =
                .ch (toLower a[i]) :: tokenize (a.drop (i + 1)) := by
              rw [hda, tokenize_nondigit_cons _ hA']
            have htB : tokenize (b.drop i) =
                .ch (toLower b[i]) :: tokenize (b.drop (i + 1)) := by
              rw [hdb, tokenize_nondigit_cons _ hB']
            rw [htA, htB]
            simp only [cmpTokList, cmpTok]
            by_cases he : toLower a[i] = toLower b[i]
            · rw [if_neg (by simp [he]), cmpNat_eq_eq.mpr he]
              exact cmpNaturalF_eq_tok fuel a b (i + 1) (by omega) (by omega) (by omega)
            · rw [if_pos he]
              cases hcn : cmpNat (toLower a[i]) (toLower b[i])
              · rfl
              · exact absurd (cmpNat_eq_eq.mp hcn) he
              · rfl
    · simp only [cmpNaturalF]
      rw [if_neg h1]
      by_cases h2 : i = a.length
      · subst h2
        rw [List.drop_length]
        by_cases h3 : a.length = b.length
        · have heb : b.drop a.length = [] := by rw [h3]; exact List.drop_length _
          rw [heb]
          exact cmpNat_eq_eq.mpr h3
        · have hlt : a.length < b.length := by omega
          have hnb : b.drop a.length ≠ [] := by
            intro hx
            have h4 : (b.drop a.length).length = b.length - a.length :=
              List.length_drop _ _
            rw [hx] at h4
            simp at h4
            omega
          cases htk : tokenize (b.drop a.length) with
          | nil => exact absurd htk (tokenize_ne_nil hnb)
          | cons t ts => exact cmpNat_eq_lt.mpr hlt
      · have h2' : i = b.length := by omega
        subst h2'
        rw [List.drop_length]
        have hlt : b.length < a.length := by omega
        have hna : a.drop b.length ≠ [] := by
          intro hx
          have h4 : (a.drop b.length).length = a.length - b.length :=
            List.length_drop _ _
          rw [hx] at h4
          simp at h4
          omega
        cases htk : tokenize (a.drop b.length) with
        | nil => exact absurd htk (tokenize_ne_nil hna)
        | cons t ts => exact cmpNat_eq_gt.mpr hlt

/-- `cmp_natural` is the lexicographic comparison of the token lists. -/
theorem cmpNatural_eq_tok (a b : List Nat) :
    cmpNatural a b = cmpTokList (tokenize a) (tokenize b) := by
  have h := cmpNaturalF_eq_tok (a.length + b.length + 1) a b 0
    (by omega) (by omega) (by omega)
  simpa [cmpNatural] using h

/-! ## Order laws of `cmp_natural` -/

theorem cmpNatural_swap (a b : List Nat) : (cmpNatural a b).swap = cmpNatural b a := by
  rw [cmpNatural_eq_tok, cmpNatural_eq_tok, cmpTokList_swap]

theorem cmpNatural_lt_trans {a b c : List Nat}
    (h1 : cmpNatural a b = .lt) (h2 : cmpNatural b c = .lt) : cmpNatural a c = .lt := by
  rw [cmpNatural_eq_tok] at h1 h2 ⊢
  exact cmpTokList_lt_trans _ _ _ (tokenize_wf' a) (tokenize_wf' b) (tokenize_wf' c) h1 h2

theorem cmpNatural_eq_iff {a b : List Nat} :
    cmpNatural a b = .eq ↔ tokenize a = tokenize b := by
  rw [cmpNatural_eq_tok]
  exact cmpTokList_eq_iff _ _ (tokenize_wf' a) (tokenize_wf' b)

theorem cmpNatural_eq_trans {a b c : List Nat}
    (h1 : cmpNatural a b = .eq) (h2 : cmpNatural b c = .eq) : cmpNatural a c = .eq := by
  rw [cmpNatural_eq_iff] at h1 h2 ⊢
  exact h1.trans h2

theorem cmpNatural_congr_left {a b c : List Nat} (h : cmpNatural a b = .eq) :
    cmpNatural a c = cmpNatural b c := by
  rw [cmpNatural_eq_tok, cmpNatural_eq_tok, cmpNatural_eq_iff.mp h]

theorem cmpNatural_congr_right {a b c : List Nat} (h : cmpNatural b c = .eq) :
    cmpNatural a b = cmpNatural a c := by
  rw [cmpNatural_eq_tok, cmpNatural_eq_tok, cmpNatural_eq_iff.mp h]

theorem cmpNatural_le_trans {a b c : List Nat}
    (h1 : cmpNatural a b ≠ .gt) (h2 : cmpNatural b c ≠ .gt) : cmpNatural a c ≠ .gt := by
  cases hab : cmpNatural a b with
  | gt => exact absurd hab h1
  | lt =>
    cases hbc : cmpNatural b c with
    | gt => exact absurd hbc h2
    | lt => rw [cmpNatural_lt_trans hab hbc]; simp
    | eq => rw [← cmpNatural_congr_right hbc, hab]; simp
  | eq => rw [cmpNatural_congr_left hab]; exact h2

/-! ## Stable insertion sort lemmas -/

theorem mem_insertNat : ∀ (l : List (List Nat)) (x y : List Nat),
    y ∈ insertNat x l → y = x ∨ y ∈ l
  | [], x, y, h => by simpa [insertNat] using h
  | z :: l, x, y, h => by
    simp only [insertNat] at h
    split at h
    · rcases List.mem_cons.mp h with rfl | h'
      · exact Or.inl rfl
      · exact Or.inr h'
    · rcases List.mem_cons.mp h with rfl | h'
      · exact Or.inr (by simp)
      · rcases mem_insertNat l x y h' with h'' | h''
        · exact Or.inl h''
        · exact Or.inr (by simp [h''])

theorem insertNat_perm : ∀ (l : List (List Nat)) (x : List Nat),
    (insertNat x l).Perm (x :: l)
  | [], x => by simp [insertNat]
  | z :: l, x => by
    simp only [insertNat]
    split
    · exact List.Perm.refl _
    · exact List.Perm.trans (List.Perm.cons z (insertNat_perm l x)) (List.Perm.swap x z l)

theorem pairwise_insertNat : ∀ (l : List (List Nat)) (x : List Nat),
    l.Pairwise (fun u v => cmpNatural u v ≠ .gt) →
    (insertNat x l).Pairwise (fun u v => cmpNatural u v ≠ .gt)
  | [], x, _ => by simp [insertNat]
  | z :: l, x, hp => by
    simp only [insertNat]
    obtain ⟨hz, hl⟩ := List.pairwise_cons.mp hp
    split <;> rename_i hxz
    · refine List.pairwise_cons.mpr ⟨?_, hp⟩
      intro u hu
      rcases List.mem_cons.mp hu with rfl | hu'
      · rw [hxz]; simp
      · exact cmpNatural_le_trans (by rw [hxz]; simp) (hz u hu')
    · refine List.pairwise_cons.mpr ⟨?_, pairwise_insertNat l x hl⟩
      intro u hu
      rcases mem_insertNat l x u hu with rfl | hu'
      · intro hzx
        apply hxz
        have hs := cmpNatural_swap z u
        rw [hzx] at hs
        exact hs.symm
      · exact hz u hu'

theorem foldl_insertNat_perm : ∀ (l acc : List (List Nat)),
    (l.foldl (fun a x => insertNat x a) acc).Perm (l ++ acc)
  | [], acc => by simp
  | x :: l, acc => by
    simp only [List.foldl_cons]
    refine (foldl_insertNat_perm l (insertNat x acc)).trans ?_
    exact List.Perm.trans (List.Perm.append_left l (insertNat_perm acc x)) List.perm_middle

theorem foldl_insertNat_pairwise : ∀ (l acc : List (List Nat)),
    acc.Pairwise (fun u v => cmpNatural u v ≠ .gt) →
    (l.foldl (fun a x => insertNat x a) acc).Pairwise (fun u v => cmpNatural u v ≠ .gt)
  | [], _, h => h
  | x :: l, acc, h => by
    simp only [List.foldl_cons]
    exact foldl_insertNat_pairwise l (insertNat x acc) (pairwise_insertNat acc x h)

theorem sortByNat_perm (l : List (List Nat)) : (sortByNat l).Perm l := by
  have h := foldl_insertNat_perm l []
  simpa [sortByNat] using h

theorem sortByNat_pairwise (l : List (List Nat)) :
    (sortByNat l).Pairwise (fun u v => cmpNatural u v ≠ .gt) :=
  foldl_insertNat_pairwise l [] (by simp)

/-! ## Locator traversal lemmas -/

mutual
theorem collect_zips_entry_ok : ∀ (p : List Nat) (n : FSNode), allReadable n = true →
    collect_zips_entry p n =
      .ok (((allFiles_entry p n).filter (fun pr => isZipExt pr.2)).map Prod.fst)
  | p, .file nm, _ => by
    simp only [collect_zips_entry, allFiles_entry]
    by_cases h : isZipExt nm = true <;> simp [h, List.filter]
  | p, .dir nm rd ch, h => by
    simp only [allReadable, Bool.and_eq_true] at h
    simp only [collect_zips_entry, allFiles_entry, if_pos h.1]
    exact collect_zips_ok (p ++ 47 :: nm) ch h.2
theorem collect_zips_ok : ∀ (p : List Nat) (ch : FSList), allReadableList ch = true →
    collect_zips p ch =
      .ok (((allFiles p ch).filter (fun pr => isZipExt pr.2)).map Prod.fst)
  | p, .nil, _ => by simp [collect_zips, allFiles]
  | p, .cons c cs, h => by
    simp only [allReadableList, Bool.and_eq_true] at h
    simp only [collect_zips, allFiles]
    rw [collect_zips_entry_ok p c h.1, collect_zips_ok p cs h.2]
    simp [List.filter_append]
end

mutual
theorem collect_zips_entry_err : ∀ (p : List Nat) (n : FSNode), allReadable n = false →
    collect_zips_entry p n = .error ()
  | p, .file nm, h => by simp [allReadable] at h
  | p, .dir nm rd ch, h => by
    simp only [allReadable] at h
    cases rd with
    | false => simp [collect_zips_entry]
    | true =>
      simp only [Bool.true_and] at h
      simp only [collect_zips_entry, if_pos rfl]
      exact collect_zips_err (p ++ 47 :: nm) ch h
theorem collect_zips_err : ∀ (p : List Nat) (ch : FSList), allReadableList ch = false →
    collect_zips p ch = .error ()
  | p, .nil, h => by simp [allReadableList] at h
  | p, .cons c cs, h => by
    simp only [allReadableList] at h
    cases hc : allReadable c with
    | false =>
      simp only [collect_zips]
      rw [collect_zips_entry_err p c hc]
    | true =>
      rw [hc, Bool.true_and] at h
      simp only [collect_zips]
      rw [collect_zips_entry_ok p c hc, collect_zips_err p cs h]
end

/-! ## Extraction loop lemmas -/

theorem processEntry_trace (dest zn : List Nat) (st : ExtractState) (er : EntryRes) :
    (processEntry dest zn st er).trace = st.trace := by
  cases er with
  | readErr => rfl
  | ok e =>
    simp only [processEntry]
    split
    · rfl
    · split
      · rfl
      · split
        · rfl
        · split <;> rfl

theorem foldl_processEntry_trace (dest zn : List Nat) :
    ∀ (es : List EntryRes) (st : ExtractState),
    (es.foldl (processEntry dest zn) st).trace = st.trace
  | [], _ => rfl
  | er :: es, st => by
    rw [List.foldl_cons, foldl_processEntry_trace dest zn es, processEntry_trace]

theorem runArchive_trace (dest : List Nat) (adata : List Nat → ArchiveData)
    (st : ExtractState) (zp : List Nat) :
    (runArchive dest adata st zp).trace = st.trace ++ [zp] := by
  simp only [runArchive]
  cases adata zp with
  | corrupt => rfl
  | entries es => rw [foldl_processEntry_trace]

theorem foldl_runArchive_trace (dest : List Nat) (adata : List Nat → ArchiveData) :
    ∀ (zips : List (List Nat)) (st : ExtractState),
    (zips.foldl (runArchive dest adata) st).trace = st.trace ++ zips
  | [], st => by simp
  | z :: zips, st => by
    rw [List.foldl_cons, foldl_runArchive_trace dest adata zips, runArchive_trace]
    simp

theorem processEntry_good (dest zn : List Nat) (st : ExtractState) :
    ∀ {er : EntryRes}, goodRes er = true →
    (processEntry dest zn st er).errors = st.errors ∧
    (processEntry dest zn st er).filesExtracted = st.filesExtracted + countFiles [er]
  | .readErr, h => by simp [goodRes] at h
  | .ok e, h => by
    simp only [goodRes, Bool.or_eq_true, Bool.and_eq_true] at h
    by_cases hdir : e.isDir = true
    · simp [processEntry, hdir, countFiles]
    · have hdir' : e.isDir = false := by simpa using hdir
      rcases h with h | ⟨⟨h1, h2⟩, h3⟩
      · exact absurd h hdir
      · simp [processEntry, hdir', h1, h2, h3, countFiles]

theorem foldl_processEntry_good (dest zn : List Nat) :
    ∀ (es : List EntryRes) (st : ExtractState), (∀ er ∈ es, goodRes er = true) →
    (es.foldl (processEntry dest zn) st).errors = st.errors ∧
    (es.foldl (processEntry dest zn) st).filesExtracted =
      st.filesExtracted + countFiles es
  | [], st, _ => by simp [countFiles]
  | er :: es, st, h => by
    rw [List.foldl_cons]
    obtain ⟨he, hc⟩ := processEntry_good dest zn st (h er (by simp))
    obtain ⟨ihe, ihc⟩ := foldl_processEntry_good dest zn es (processEntry dest zn st er)
      (fun x hx => h x (by simp [hx]))
    refine ⟨by rw [ihe, he], ?_⟩
    rw [ihc, hc]
    simp only [countFiles, List.countP_cons, List.countP_nil]
    omega

theorem runArchive_corrupt {zp : List Nat} (dest : List Nat)
    (adata : List Nat → ArchiveData) (st : ExtractState) (h : adata zp = .corrupt) :
    runArchive dest adata st zp =
      { st with trace := st.trace ++ [zp],
                errors := st.errors ++ [⟨fileName zp, .archiveOpen⟩] } := by
  simp [runArchive, h]

theorem runArchive_good {zp : List Nat} {es : List EntryRes} (dest : List Nat)
    (adata : List Nat → ArchiveData) (st : ExtractState) (h : adata zp = .entries es)
    (hg : ∀ er ∈ es, goodRes er = true) :
    (runArchive dest adata st zp).errors = st.errors ∧
    (runArchive dest adata st zp).filesExtracted = st.filesExtracted + countFiles es := by
  simp only [runArchive, h]
  exact foldl_processEntry_good dest (fileName zp) es _ hg

theorem lookupLast_append_last (fsl : List (List Nat × FileContent)) (k : List Nat)
    (v : FileContent) : lookupLast (fsl ++ [(k, v)]) k = some v := by
  simp [lookupLast, List.foldl_append]

theorem runArchive_single {zp : List Nat} {e : FileEntry} (dest : List Nat)
    (adata : List Nat → ArchiveData) (st : ExtractState) (h : adata zp = .entries [.ok e])
    (h1 : e.isDir = false) (h2 : e.mkdirOk = true) (h3 : e.createOk = true)
    (h4 : e.writeOk = true) :
    (runArchive dest adata st zp).fs =
      st.fs ++ [(joinPath dest (normalizeEntryName e.name), .full e.content)] := by
  simp [runArchive, h, processEntry, h1, h2, h3, h4]

theorem extractLoop_append (dest : List Nat) (adata : List Nat → ArchiveData)
    (zs1 zs2 : List (List Nat)) :
    extractLoop dest adata (zs1 ++ zs2) =
      zs2.foldl (runArchive dest adata) (extractLoop dest adata zs1) := by
  simp [extractLoop, List.foldl_append]

/-! ## Normalizer lemmas -/

theorem replaceBackslash_no_backslash (raw : List Nat) : 92 ∉ replaceBackslash raw := by
  intro h
  simp only [replaceBackslash, List.mem_map] at h
  obtain ⟨c, _, hc⟩ := h
  split at hc <;> omega

theorem getD_replaceBackslash_ne (raw : List Nat) (n : Nat)
    (h : n < (replaceBackslash raw).length) : (replaceBackslash raw).getD n 0 ≠ 92 := by
  rw [List.getD_eq_getElem _ 0 h]
  intro hc
  exact replaceBackslash_no_backslash raw (hc ▸ List.getElem_mem h)

/-! ## Numeric value of digit runs

Facts connecting a digit run's numeric value to its byte representation:
the value bounds of a digit string, injectivity of the canonical
(no-leading-zero) representation, and invariance of the value under
stripping leading zeros.  Together they show that two runs of equal
numeric value have identical zero-stripped digits, which is what the
run comparison of `cmp_natural` ties on. -/

theorem foldl_digits_acc : ∀ (r : List Nat) (acc : Nat),
    r.foldl (fun a c => a * 10 + (c - 48)) acc =
      acc * 10 ^ r.length + r.foldl (fun a c => a * 10 + (c - 48)) 0
  | [], acc => by simp
  | c :: r, acc => by
    simp only [List.foldl_cons, List.length_cons]
    rw [foldl_digits_acc r (acc * 10 + (c - 48)), foldl_digits_acc r (0 * 10 + (c - 48))]
    ring

theorem runValue_cons (c : Nat) (r : List Nat) :
    runValue (c :: r) = (c - 48) * 10 ^ r.length + runValue r := by
  simp only [runValue, List.foldl_cons]
  rw [foldl_digits_acc r (0 * 10 + (c - 48))]
  ring

theorem runValue_lt : ∀ (r : List Nat), (∀ c ∈ r, isDigit c = true) →
    runValue r < 10 ^ r.length
  | [], _ => by simp [runValue]
  | c :: r, hd => by
    rw [runValue_cons, List.length_cons, Nat.pow_succ]
    have h1 : runValue r < 10 ^ r.length := runValue_lt r (fun x hx => hd x (by simp [hx]))
    have h2 : c ≤ 57 := (digit_bounds (hd c (by simp))).2
    have h3 : (c - 48) * 10 ^ r.length ≤ 9 * 10 ^ r.length :=
      Nat.mul_le_mul_right _ (by omega)
    omega

theorem runValue_pos_of_canon (c : Nat) (r : List Nat) (hc : isDigit c = true)
    (hne : c ≠ 48) : 10 ^ r.length ≤ runValue (c :: r) := by
  rw [runValue_cons]
  have h2 : 48 ≤ c := (digit_bounds hc).1
  have h3 := Nat.mul_le_mul_right (10 ^ r.length) (show 1 ≤ c - 48 by omega)
  omega

theorem canon_length_eq : ∀ (r1 r2 : List Nat),
    (∀ c ∈ r1, isDigit c = true) → (∀ c ∈ r2, isDigit c = true) →
    (r1 = [] ∨ r1.headD 0 ≠ 48) → (r2 = [] ∨ r2.headD 0 ≠ 48) →
    runValue r1 = runValue r2 → r1.length = r2.length
  | [], [], _, _, _, _, _ => rfl
  | [], c :: r, _, hd2, _, hn2, hv => by
    exfalso
    have hc : c ≠ 48 := by
      rcases hn2 with h | h
      · exact List.noConfusion h
      · simpa using h
    have h1 := runValue_pos_of_canon c r (hd2 c (by simp)) hc
    have h2 : 0 < 10 ^ r.length := Nat.pos_pow_of_pos _ (by omega)
    have hv0 : (0 : Nat) = runValue (c :: r) := hv
    omega
  | c :: r, [], hd1, _, hn1, _, hv => by
    exfalso
    have hc : c ≠ 48 := by
      rcases hn1 with h | h
      · exact List.noConfusion h
      · simpa using h
    have h1 := runValue_pos_of_canon c r (hd1 c (by simp)) hc
    have h2 : 0 < 10 ^ r.length := Nat.pos_pow_of_pos _ (by omega)
    have hv0 : runValue (c :: r) = (0 : Nat) := hv
    omega
  | c1 :: r1, c2 :: r2, hd1, hd2, hn1, hn2, hv => by
    rcases Nat.lt_trichotomy (c1 :: r1).length (c2 :: r2).length with h | h | h
    · exfalso
      have hc2 : c2 ≠ 48 := by
        rcases hn2 with hx | hx
        · exact List.noConfusion hx
        · simpa using hx
      have b1 := runValue_lt (c1 :: r1) hd1
      have b2 := runValue_pos_of_canon c2 r2 (hd2 c2 (by simp)) hc2
      have hp : (10 : Nat) ^ (c1 :: r1).length ≤ 10 ^ r2.length :=
        Nat.pow_le_pow_right (by omega) (by simp only [List.length_cons] at h ⊢; omega)
      omega
    · exact h
    · exfalso
      have hc1 : c1 ≠ 48 := by
        rcases hn1 with hx | hx
        · exact List.noConfusion hx
        · simpa using hx
      have b1 := runValue_lt (c2 :: r2) hd2
      have b2 := runValue_pos_of_canon c1 r1 (hd1 c1 (by simp)) hc1
      have hp : (10 : Nat) ^ (c2 :: r2).length ≤ 10 ^ r1.length :=
        Nat.pow_le_pow_right (by omega) (by simp only [List.length_cons] at h ⊢; omega)
      omega

theorem runValue_inj_of_length : ∀ (r1 r2 : List Nat), r1.length = r2.length →
    (∀ c ∈ r1, isDigit c = true) → (∀ c ∈ r2, isDigit c = true) →
    runValue r1 = runValue r2 → r1 = r2
  | [], [], _, _, _, _ => rfl
  | [], _ :: _, hl, _, _, _ => by simp at hl
  | _ :: _, [], hl, _, _, _ => by simp at hl
  | c1 :: r1, c2 :: r2, hl, hd1, hd2, hv => by
    simp only [List.length_cons] at hl
    have hl' : r1.length = r2.length := by omega
    rw [runValue_cons, runValue_cons, hl'] at hv
    have b1 := runValue_lt r1 (fun x hx => hd1 x (by simp [hx]))
    have b2 := runValue_lt r2 (fun x hx => hd2 x (by simp [hx]))
    rw [hl'] at b1
    have hd1c := digit_bounds (hd1 c1 (by simp))
    have hd2c := digit_bounds (hd2 c2 (by simp))
    have hceq : c1 = c2 := by
      by_contra hne
      rcases Nat.lt_trichotomy (c1 - 48) (c2 - 48) with hlt | heq | hgt
      · have h5 := Nat.mul_le_mul_right (10 ^ r2.length)
          (show c1 - 48 + 1 ≤ c2 - 48 from hlt)
        rw [Nat.add_mul, Nat.one_mul] at h5
        omega
      · exact hne (by omega)
      · have h5 := Nat.mul_le_mul_right (10 ^ r2.length)
          (show c2 - 48 + 1 ≤ c1 - 48 from hgt)
        rw [Nat.add_mul, Nat.one_mul] at h5
        omega
    subst hceq
    have hveq : runValue r1 = runValue r2 := by omega
    rw [runValue_inj_of_length r1 r2 hl' (fun x hx => hd1 x (by simp [hx]))
      (fun x hx => hd2 x (by simp [hx])) hveq]

theorem head_dropWhile_false (p : Nat → Bool) :
    ∀ (l : List Nat) {c : Nat} {t : List Nat}, l.dropWhile p = c :: t → p c = false
  | [], _, _, h => by simp at h
  | a :: l, c, t, h => by
    rw [List.dropWhile_cons] at h
    split at h
    · exact head_dropWhile_false p l h
    · rename_i hpa
      injection h with h1 _
      subst h1
      simpa using hpa

theorem foldl_zeros : ∀ (l : List Nat), (∀ c ∈ l, c = 48) →
    l.foldl (fun a c => a * 10 + (c - 48)) 0 = 0
  | [], _ => rfl
  | c :: l, h => by
    have hc : c = 48 := h c (by simp)
    simp only [List.foldl_cons, hc, Nat.zero_mul, Nat.sub_self, Nat.add_zero]
    exact foldl_zeros l (fun x hx => h x (by simp [hx]))

theorem runValue_trim (r : List Nat) :
    runValue (r.dropWhile (fun c => c == 48)) = runValue r := by
  conv_rhs => rw [← List.takeWhile_append_dropWhile (p := fun c => c == 48) (l := r)]
  simp only [runValue, List.foldl_append]
  rw [foldl_zeros (r.takeWhile (fun c => c == 48))
    (fun c hc => by simpa using List.mem_takeWhile_imp hc)]

theorem trim_eq_of_value_eq {r1 r2 : List Nat}
    (hd1 : ∀ c ∈ r1, isDigit c = true) (hd2 : ∀ c ∈ r2, isDigit c = true)
    (hv : runValue r1 = runValue r2) :
    r1.dropWhile (fun c => c == 48) = r2.dropWhile (fun c => c == 48) := by
  have hs1 : ∀ c ∈ r1.dropWhile (fun c => c == 48), isDigit c = true := by
    intro c hc
    apply hd1
    rw [dropWhile_eq_drop_takeWhile] at hc
    exact List.drop_subset _ _ hc
  have hs2 : ∀ c ∈ r2.dropWhile (fun c => c == 48), isDigit c = true := by
    intro c hc
    apply hd2
    rw [dropWhile_eq_drop_takeWhile] at hc
    exact List.drop_subset _ _ hc
  have hn1 : r1.dropWhile (fun c => c == 48) = [] ∨
      (r1.dropWhile (fun c => c == 48)).headD 0 ≠ 48 := by
    cases hdw : r1.dropWhile (fun c => c == 48) with
    | nil => exact Or.inl rfl
    | cons c t =>
      refine Or.inr ?_
      have hh := head_dropWhile_false _ r1 hdw
      simpa using hh
  have hn2 : r2.dropWhile (fun c => c == 48) = [] ∨
      (r2.dropWhile (fun c => c == 48)).headD 0 ≠ 48 := by
    cases hdw : r2.dropWhile (fun c => c == 48) with
    | nil => exact Or.inl rfl
    | cons c t =>
      refine Or.inr ?_
      have hh := head_dropWhile_false _ r2 hdw
      simpa using hh
  have hv' : runValue (r1.dropWhile (fun c => c == 48)) =
      runValue (r2.dropWhile (fun c => c == 48)) := by
    rw [runValue_trim, runValue_trim]
    exact hv
  exact runValue_inj_of_length _ _ (canon_length_eq _ _ hs1 hs2 hn1 hn2 hv') hs1 hs2 hv'

/-- `cmp_natural` applied to two whole digit runs is exactly the
digit-run comparison of its loop body. -/
theorem cmpNatural_digit_runs (r1 r2 : List Nat) (h1 : r1 ≠ []) (h2 : r2 ≠ [])
    (hd1 : ∀ c ∈ r1, isDigit c = true) (hd2 : ∀ c ∈ r2, isDigit c = true) :
    cmpNatural r1 r2 = cmpRun r1 r2 := by
  have ht1 : tokenize r1 = [.run r1] := by
    cases r1 with
    | nil => exact absurd rfl h1
    | cons c cs =>
      rw [tokenize_digit_cons cs c (hd1 c (by simp))]
      have htw : (c :: cs).takeWhile isDigit = c :: cs :=
        List.takeWhile_eq_self_iff.mpr (fun x hx => hd1 x hx)
      have hdw : (c :: cs).dropWhile isDigit = [] :=
        List.dropWhile_eq_nil_iff.mpr (fun x hx => hd1 x hx)
      rw [htw, hdw]
      rfl
  have ht2 : tokenize r2 = [.run r2] := by
    cases r2 with
    | nil => exact absurd rfl h2
    | cons c cs =>
      rw [tokenize_digit_cons cs c (hd2 c (by simp))]
      have htw : (c :: cs).takeWhile isDigit = c :: cs :=
        List.takeWhile_eq_self_iff.mpr (fun x hx => hd2 x hx)
      have hdw : (c :: cs).dropWhile isDigit = [] :=
        List.dropWhile_eq_nil_iff.mpr (fun x hx => hd2 x hx)
      rw [htw, hdw]
      rfl
  rw [cmpNatural_eq_tok, ht1, ht2]
  cases hc : cmpRun r1 r2 <;> simp [cmpTokList, cmpTok, hc]

/-! ## Claim theorems -/

/-- C1: `cmp_natural` defines a total, transitive order over strings:
the comparison swaps consistently (antisymmetry up to its equivalence,
and hence totality of the induced `≤`), the strict order and the
equivalence are transitive, and sorting `["part2","part10","part1"]`
with it yields `["part1","part2","part10"]`. -/
theorem c1_total_order :
    (∀ a b : List Nat, (cmpNatural a b).swap = cmpNatural b a) ∧
    (∀ a b c : List Nat,
      cmpNatural a b = .lt → cmpNatural b c = .lt → cmpNatural a c = .lt) ∧
    (∀ a b c : List Nat,
      cmpNatural a b = .eq → cmpNatural b c = .eq → cmpNatural a c = .eq) ∧
    sortByNat [bytes "part2", bytes "part10", bytes "part1"] =
      [bytes "part1", bytes "part2", bytes "part10"] :=
  ⟨cmpNatural_swap, fun _ _ _ => cmpNatural_lt_trans, fun _ _ _ => cmpNatural_eq_trans,
    by decide⟩

/-- Witness for C1: transitivity applied at `part1 < part2 < part10`. -/
theorem c1_witness :
    cmpNatural (bytes "part1") (bytes "part10") = .lt :=
  c1_total_order.2.1 (bytes "part1") (bytes "part2") (bytes "part10")
    (by decide) (by decide)

/-- C7: zero-padding tie-break — for every pair of digit runs of equal
numeric value, the run with more characters (more leading zeros) sorts
strictly after the shorter-padded run under `cmp_natural`; in
particular `"file007"` sorts after `"file7"`, and both sort before
`"file8"`. -/
theorem c7_zero_padding :
    (∀ r1 r2 : List Nat, r1 ≠ [] → r2 ≠ [] →
      (∀ c ∈ r1, isDigit c = true) → (∀ c ∈ r2, isDigit c = true) →
      runValue r1 = runValue r2 → r1.length < r2.length →
      cmpNatural r1 r2 = .lt ∧ cmpNatural r2 r1 = .gt) ∧
    cmpNatural (bytes "file7") (bytes "file007") = .lt ∧
    cmpNatural (bytes "file007") (bytes "file8") = .lt ∧
    cmpNatural (bytes "file7") (bytes "file8") = .lt := by
  refine ⟨?_, by decide, by decide, by decide⟩
  intro r1 r2 h1 h2 hd1 hd2 hv hlen
  have htrim := trim_eq_of_value_eq hd1 hd2 hv
  have hcr : cmpRun r1 r2 = .lt := by
    simp only [cmpRun]
    rw [if_neg (by rw [htrim]; omega), htrim, (cmpList_eq_iff _ _).mpr rfl]
    exact cmpNat_eq_lt.mpr hlen
  refine ⟨?_, ?_⟩
  · rw [cmpNatural_digit_runs r1 r2 h1 h2 hd1 hd2]
    exact hcr
  · have hs := cmpNatural_swap r1 r2
    rw [cmpNatural_digit_runs r1 r2 h1 h2 hd1 hd2, hcr] at hs
    exact hs.symm

/-- Witness for C7: the general tie-break law applied at the runs
`"7"` and `"007"` (equal value 7, lengths 1 and 3). -/
theorem c7_witness :
    cmpNatural (bytes "7") (bytes "007") = .lt ∧
    cmpNatural (bytes "007") (bytes "7") = .gt :=
  c7_zero_padding.1 (bytes "7") (bytes "007") (by decide) (by decide) (by decide)
    (by decide) (by decide) (by decide)

/-- C8: `cmp_natural` compares non-digit characters case-insensitively:
any two strings with the same ASCII-lowercase image (that is, differing
only in the ASCII case of non-digit characters) compare `Equal`;
in particular `"Backup.ZIP"` and `"backup.zip"` are equal-ordering keys. -/
theorem c8_case_insensitive :
    (∀ a b : List Nat, a.map toLower = b.map toLower → cmpNatural a b = .eq) ∧
    cmpNatural (bytes "Backup.ZIP") (bytes "backup.zip") = .eq := by
  constructor
  · intro a b h
    rw [cmpNatural_eq_iff]
    exact tokenize_congr a.length a b (Nat.le_refl _) h
  · decide

/-- Witness for C8: the case-insensitivity law applied at
`"Backup.ZIP"` / `"backup.zip"`. -/
theorem c8_witness :
    cmpNatural (bytes "Backup.ZIP") (bytes "backup.zip") = .eq :=
  c8_case_insensitive.1 (bytes "Backup.ZIP") (bytes "backup.zip") (by decide)

/-- C6: the path normalizer is pure and total and performs exactly the
spec's two steps (replace backslashes, then drop a leading
letter-then-slash two-character prefix), with the stated examples. -/
theorem c6_normalizer_exact :
    (∀ raw : List Nat, normalizeEntryName raw = normalizeSpec raw) ∧
    normalizeEntryName (bytes "C/Users/x.txt") = bytes "Users/x.txt" ∧
    normalizeEntryName (bytes "Documents/x.txt") = bytes "Documents/x.txt" := by
  refine ⟨?_, by decide, by decide⟩
  intro raw
  simp only [normalizeEntryName, normalizeSpec, strip_drive_letter]
  by_cases hc : 2 ≤ (replaceBackslash raw).length ∧
      isAlpha ((replaceBackslash raw).getD 0 0) = true ∧
      (replaceBackslash raw).getD 1 0 = 47
  · rw [if_pos ⟨hc.1, hc.2.1, Or.inl hc.2.2⟩, if_pos hc]
  · rw [if_neg ?_, if_neg hc]
    intro hcontra
    apply hc
    rcases hcontra with ⟨a1, a2, a3 | a3⟩
    · exact ⟨a1, a2, a3⟩
    · exact absurd a3 (getD_replaceBackslash_ne raw 1 (by omega))

/-- Counterexample for C2: the normalized form of `"C/D/x.txt"` is
`"D/x.txt"`, which still has a drive-letter-style first segment, and the
normalized form of `"/etc/passwd"` still begins with a path separator. -/
theorem c2_counterexample :
    hasDriveStyle (normalizeEntryName (bytes "C/D/x.txt")) = true ∧
    startsWithSep (normalizeEntryName (bytes "/etc/passwd")) = true := by
  refine ⟨by decide, by decide⟩

/-- C2 (amended): the normalized path never contains a backslash, and
when the separator-unified raw name itself begins with a
drive-letter-style prefix, normalization removes exactly that
two-character prefix; the result may however still begin with a
single-letter segment or with a leading separator. -/
theorem c2_amended_normalized_path :
    (∀ raw : List Nat, 92 ∉ normalizeEntryName raw) ∧
    (∀ raw : List Nat, hasDriveStyle (replaceBackslash raw) = true →
      normalizeEntryName raw = (replaceBackslash raw).drop 2) := by
  constructor
  · intro raw h
    have hm : 92 ∈ replaceBackslash raw := by
      simp only [normalizeEntryName, strip_drive_letter] at h
      split at h
      · exact List.drop_subset _ _ h
      · exact h
    exact replaceBackslash_no_backslash raw hm
  · intro raw h
    simp only [hasDriveStyle, Bool.and_eq_true, decide_eq_true_eq, beq_iff_eq] at h
    obtain ⟨⟨h1, h2⟩, h3⟩ := h
    simp only [normalizeEntryName, strip_drive_letter]
    rw [if_pos ⟨h1, h2, Or.inl h3⟩]

/-- Witness for C2 (amended): the drive prefix of `"C/Users/x.txt"` is
dropped. -/
theorem c2_witness :
    normalizeEntryName (bytes "C/Users/x.txt") =
      (replaceBackslash (bytes "C/Users/x.txt")).drop 2 :=
  c2_amended_normalized_path.2 (bytes "C/Users/x.txt") (by decide)

/-- C9: the archive locator returns an empty sequence for a missing or
non-directory root; for a fully readable root directory it returns
exactly the files below it (at any depth) whose extension is `zip`
case-insensitively, sorted by the natural comparator on the textual
path; and a directory-read failure anywhere propagates as a fatal
error. -/
theorem c9_locator :
    (∀ sp : List Nat, find_zip_files sp none = .ok []) ∧
    (∀ sp nm : List Nat, find_zip_files sp (some (.file nm)) = .ok []) ∧
    (∀ (sp nm : List Nat) (rd : Bool) (ch : FSList),
      allReadable (.dir nm rd ch) = true →
      ∃ l, find_zip_files sp (some (.dir nm rd ch)) = .ok l ∧
        l.Perm (((allFiles sp ch).filter (fun pr => isZipExt pr.2)).map Prod.fst) ∧
        l.Pairwise (fun u v => cmpNatural u v ≠ .gt)) ∧
    (∀ (sp nm : List Nat) (rd : Bool) (ch : FSList),
      allReadable (.dir nm rd ch) = false →
      find_zip_files sp (some (.dir nm rd ch)) = .error ()) := by
  refine ⟨fun sp => rfl, fun sp nm => rfl, ?_, ?_⟩
  · intro sp nm rd ch h
    simp only [allReadable, Bool.and_eq_true] at h
    refine ⟨sortByNat (((allFiles sp ch).filter (fun pr => isZipExt pr.2)).map Prod.fst),
      ?_, sortByNat_perm _, sortByNat_pairwise _⟩
    simp only [find_zip_files, if_pos h.1]
    rw [collect_zips_ok sp ch h.2]
  · intro sp nm rd ch h
    simp only [allReadable] at h
    cases rd with
    | false => simp [find_zip_files]
    | true =>
      simp only [Bool.true_and] at h
      simp only [find_zip_files, if_pos rfl]
      rw [collect_zips_err sp ch h]
      simp

/-- Witness for C9: the readable-root case applied to a small concrete
tree. -/
theorem c9_witness :
    ∃ l, find_zip_files (bytes "/s")
        (some (.dir (bytes "s") true
          (.cons (.file (bytes "b.zip")) (.cons (.file (bytes "a.txt")) .nil)))) = .ok l ∧
      l.Perm (((allFiles (bytes "/s")
          (.cons (.file (bytes "b.zip")) (.cons (.file (bytes "a.txt")) .nil))).filter
        (fun pr => isZipExt pr.2)).map Prod.fst) ∧
      l.Pairwise (fun u v => cmpNatural u v ≠ .gt) :=
  c9_locator.2.2.1 (bytes "/s") (bytes "s") true
    (.cons (.file (bytes "b.zip")) (.cons (.file (bytes "a.txt")) .nil)) (by decide)

/-- Counterexample for C3: a source tree whose directory listing fails
makes `extract` propagate a fatal error even though the destination root
can be created (`destCreatable = true`). -/
theorem c3_counterexample :
    extract (bytes "/s")
      (some (.dir (bytes "s") true (.cons (.dir (bytes "bad") false .nil) .nil)))
      (fun _ => .corrupt) (bytes "/d") true = .error () := by decide

/-- C3 (amended): `extract` fails fatally only if the source listing
fails or the destination root cannot be created: whenever
`find_zip_files` succeeds and the destination root can be created,
`extract` returns a result, possibly containing recorded errors. -/
theorem c3_amended_no_fatal (sp : List Nat) (root : Option FSNode)
    (adata : List Nat → ArchiveData) (dest : List Nat) (zips : List (List Nat))
    (h : find_zip_files sp root = .ok zips) :
    ∃ r, extract sp root adata dest true = .ok r := by
  simp only [extract, h]
  by_cases he : zips.isEmpty
  · rw [if_pos he]
    exact ⟨_, rfl⟩
  · rw [if_neg he, if_neg (by simp)]
    exact ⟨_, rfl⟩

/-- Witness for C3 (amended): a run on one archive returns a result. -/
theorem c3_witness : ∃ r,
    extract (bytes "/s")
      (some (.dir (bytes "s") true (.cons (.file (bytes "a.zip")) .nil)))
      (fun _ => .corrupt) (bytes "/d") true = .ok r :=
  c3_amended_no_fatal (bytes "/s")
    (some (.dir (bytes "s") true (.cons (.file (bytes "a.zip")) .nil)))
    (fun _ => .corrupt) (bytes "/d") [bytes "/s/a.zip"] (by decide)

/-- C4: recoverable failures are isolated at two granularities — a
failed archive open records exactly one `archiveOpen` error and leaves
the counters and filesystem untouched; each failing entry stage
(entry-read, directory-create, file-create, file-write) records exactly
one error for that entry while the fold structure continues with the
next entry; and with three archives of which the second is corrupt, the
run still counts the files of archives one and three and reports exactly
one error tagged to archive two. -/
theorem c4_fault_isolation :
    (∀ (dest : List Nat) (adata : List Nat → ArchiveData) (st : ExtractState)
      (zp : List Nat), adata zp = .corrupt →
      runArchive dest adata st zp =
        { st with trace := st.trace ++ [zp],
                  errors := st.errors ++ [⟨fileName zp, .archiveOpen⟩] }) ∧
    (∀ (dest zn : List Nat) (st : ExtractState),
      processEntry dest zn st .readErr =
        { st with errors := st.errors ++ [⟨zn, .entryRead⟩] }) ∧
    (∀ (dest zn : List Nat) (st : ExtractState) (e : FileEntry),
      e.isDir = false → e.mkdirOk = false →
      processEntry dest zn st (.ok e) =
        { st with errors := st.errors ++ [⟨zn, .mkdir⟩] }) ∧
    (∀ (dest zn : List Nat) (st : ExtractState) (e : FileEntry),
      e.isDir = false → e.mkdirOk = true → e.createOk = false →
      processEntry dest zn st (.ok e) =
        { st with errors := st.errors ++ [⟨zn, .createFile⟩] }) ∧
    (∀ (dest zn : List Nat) (st : ExtractState) (e : FileEntry),
      e.isDir = false → e.mkdirOk = true → e.createOk = true → e.writeOk = false →
      processEntry dest zn st (.ok e) =
        { st with fs := st.fs ++ [(joinPath dest (normalizeEntryName e.name), .truncated)],
                  errors := st.errors ++ [⟨zn, .writeFile⟩] }) ∧
    (∀ (dest : List Nat) (adata : List Nat → ArchiveData) (z1 z2 z3 : List Nat)
      (es1 es3 : List EntryRes),
      adata z1 = .entries es1 → adata z2 = .corrupt → adata z3 = .entries es3 →
      (∀ er ∈ es1, goodRes er = true) → (∀ er ∈ es3, goodRes er = true) →
      (extractLoop dest adata [z1, z2, z3]).filesExtracted =
        countFiles es1 + countFiles es3 ∧
      (extractLoop dest adata [z1, z2, z3]).errors = [⟨fileName z2, .archiveOpen⟩]) := by
  refine ⟨?_, ?_, ?_, ?_, ?_, ?_⟩
  · intro dest adata st zp h
    exact runArchive_corrupt dest adata st h
  · intro dest zn st
    rfl
  · intro dest zn st e h1 h2
    simp [processEntry, h1, h2]
  · intro dest zn st e h1 h2 h3
    simp [processEntry, h1, h2, h3]
  · intro dest zn st e h1 h2 h3 h4
    simp [processEntry, h1, h2, h3, h4]
  · intro dest adata z1 z2 z3 es1 es3 h1 h2 h3 hg1 hg3
    have hunfold : extractLoop dest adata [z1, z2, z3] =
        runArchive dest adata
          (runArchive dest adata (runArchive dest adata initState z1) z2) z3 := by
      simp [extractLoop]
    have e1 := runArchive_good dest adata initState h1 hg1
    have e2 := runArchive_corrupt dest adata (runArchive dest adata initState z1) h2
    rw [hunfold, e2]
    obtain ⟨e3e, e3c⟩ := runArchive_good dest adata
      { runArchive dest adata initState z1 with
        trace := (runArchive dest adata initState z1).trace ++ [z2],
        errors := (runArchive dest adata initState z1).errors ++
          [⟨fileName z2, .archiveOpen⟩] } h3 hg3
    refine ⟨?_, ?_⟩
    · rw [e3c]
      have hc1 := e1.2
      simp [initState] at hc1
      simp [initState, hc1]
    · rw [e3e]
      have he1 := e1.1
      simp [initState] at he1
      simp [initState, he1]

/-- Witness for C4: the three-archive scenario with a corrupt middle
archive, one file in the first archive and two in the third. -/
theorem c4_witness :
    (extractLoop (bytes "/d")
      (fun p => if p = bytes "a1.zip" then
          .entries [.ok ⟨bytes "x.txt", false, [1], true, true, true⟩]
        else if p = bytes "a2.zip" then .corrupt
        else .entries [.ok ⟨bytes "y.txt", false, [2], true, true, true⟩,
                       .ok ⟨bytes "z.txt", false, [3], true, true, true⟩])
      [bytes "a1.zip", bytes "a2.zip", bytes "a3.zip"]).filesExtracted =
        countFiles [.ok ⟨bytes "x.txt", false, [1], true, true, true⟩] +
        countFiles [.ok ⟨bytes "y.txt", false, [2], true, true, true⟩,
                    .ok ⟨bytes "z.txt", false, [3], true, true, true⟩] ∧
    (extractLoop (bytes "/d")
      (fun p => if p = bytes "a1.zip" then
          .entries [.ok ⟨bytes "x.txt", false, [1], true, true, true⟩]
        else if p = bytes "a2.zip" then .corrupt
        else .entries [.ok ⟨bytes "y.txt", false, [2], true, true, true⟩,
                       .ok ⟨bytes "z.txt", false, [3], true, true, true⟩])
      [bytes "a1.zip", bytes "a2.zip", bytes "a3.zip"]).errors =
        [⟨fileName (bytes "a2.zip"), .archiveOpen⟩] :=
  c4_fault_isolation.2.2.2.2.2 (bytes "/d") _ (bytes "a1.zip") (bytes "a2.zip")
    (bytes "a3.zip") _ _ (by decide) (by decide) (by decide) (by decide) (by decide)

/-- C5: last-write-wins — when the last archive of the processing
sequence holds a single successfully-extracted entry, the content left
at its normalized destination path is that archive's content, whatever
any earlier archive wrote there. -/
theorem c5_last_write_wins (dest : List Nat) (adata : List Nat → ArchiveData)
    (zs : List (List Nat)) (z2 : List Nat) (e2 : FileEntry)
    (h : adata z2 = .entries [.ok e2]) (h1 : e2.isDir = false)
    (h2 : e2.mkdirOk = true) (h3 : e2.createOk = true) (h4 : e2.writeOk = true) :
    lookupLast (extractLoop dest adata (zs ++ [z2])).fs
      (joinPath dest (normalizeEntryName e2.name)) = some (.full e2.content) := by
  rw [extractLoop_append]
  simp only [List.foldl_cons, List.foldl_nil]
  rw [runArchive_single dest adata _ h h1 h2 h3 h4]
  exact lookupLast_append_last _ _ _

/-- Witness for C5: `a1.zip` then `a2.zip`, both writing `notes.txt`;
the final content is `a2.zip`'s. -/
theorem c5_witness :
    lookupLast (extractLoop (bytes "/d")
      (fun p => if p = bytes "a2.zip" then
          .entries [.ok ⟨bytes "notes.txt", false, [50], true, true, true⟩]
        else .entries [.ok ⟨bytes "notes.txt", false, [49], true, true, true⟩])
      ([bytes "a1.zip"] ++ [bytes "a2.zip"])).fs
      (joinPath (bytes "/d")
        (normalizeEntryName (bytes "notes.txt"))) = some (.full [50]) :=
  c5_last_write_wins (bytes "/d") _ [bytes "a1.zip"] (bytes "a2.zip")
    ⟨bytes "notes.txt", false, [50], true, true, true⟩ (by decide) rfl rfl rfl rfl

/-- Counterexample for C10: with an empty archive sequence `extract`
returns before `fs::create_dir_all(dest_dir)` — the destination root is
never created, contradicting the claim's "including the empty
sequence". -/
theorem c10_counterexample :
    extract (bytes "/s") (some (.dir (bytes "s") true .nil)) (fun _ => .corrupt)
      (bytes "/d") true = .ok ⟨[], 0, [], [], false⟩ := by decide

/-- C10 (amended): for every nonempty discovered archive sequence and a
creatable destination root, `extract` invokes the destination-root
creation and then processes the archives strictly in the given (sorted)
order; with an empty sequence it returns immediately without creating
the destination root. -/
theorem c10_amended (sp : List Nat) (root : Option FSNode)
    (adata : List Nat → ArchiveData) (dest : List Nat) (zips : List (List Nat))
    (h : find_zip_files sp root = .ok zips) (hne : zips ≠ []) :
    ∃ r, extract sp root adata dest true = .ok r ∧
      r.destRootEnsured = true ∧ r.trace = zips := by
  simp only [extract, h]
  rw [if_neg (by simpa using hne), if_neg (by simp)]
  refine ⟨_, rfl, rfl, ?_⟩
  show (extractLoop dest adata zips).trace = zips
  have h2 := foldl_runArchive_trace dest adata zips initState
  simpa [extractLoop, initState] using h2

/-- Witness for C10 (amended): one archive is processed in order with
the destination root ensured. -/
theorem c10_witness :
    ∃ r, extract (bytes "/s")
        (some (.dir (bytes "s") true (.cons (.file (bytes "a.zip")) .nil)))
        (fun _ => .corrupt) (bytes "/d") true = .ok r ∧
      r.destRootEnsured = true ∧ r.trace = [bytes "/s/a.zip"] :=
  c10_amended (bytes "/s")
    (some (.dir (bytes "s") true (.cons (.file (bytes "a.zip")) .nil)))
    (fun _ => .corrupt) (bytes "/d") [bytes "/s/a.zip"] (by decide) (by decide)

end Restore
